import Mathlib

/-!
# A shallow embedding of the `lhef` LHEF reader (src/src/lib.rs)

The Rust crate is a streaming decoder for Les Houches Event Files.  This file
embeds the decoder in Lean and proves the frozen claims about it.

Model conventions, fixed once for the whole development:

* The input stream (`BufRead` in the source) is a `List (List Char)`: the list
  of lines of the input, each element being one line's content *without* its
  terminating `'\n'`.  `read_line` on a nonempty stream hands back the content
  followed by `'\n'` (Rust's `read_line` appends the terminator); on an
  exhausted stream it reads 0 bytes, which the embedding renders as `[]`.
  Content handed out by a real `read_line` never contains an interior `'\n'`,
  and the model does not treat `'\r''\n'` line endings specially (the source's
  `str::lines` would strip a `'\r'` before a `'\n'`; inputs are taken to be
  `'\n'`-terminated).
* Rust `String` buffers are `List Char`; `str::trim` is modelled over the
  ASCII whitespace characters, the restriction of Rust's Unicode trimming to
  the character set the format uses.
* `f64` values are never inspected by any claim, so a parsed `f64` is
  modelled by its source token (`F64Repr := List Char`); whether a token
  parses at all follows Rust's `f64::from_str` grammar (`parseF64Ok`).
  `i32` parsing is modelled exactly, range check included.
* Rust panics (the `unwrap` of `None` in `parse_header`, and the capacity
  overflow `Vec::with_capacity` raises for a huge sign-converted count) are a
  third outcome `POutcome.crash` beside success and `ParseError` returns.
  Allocation failure for a representable capacity is not modelled.
-/

namespace Lhef

/-- One line of input, without its terminating newline. -/
abbrev Line := List Char

/-- The decoder's input: the stream's lines, in order. -/
abbrev Input := List Line

/-- `stream.read_line(&mut buf)`: the raw text appended to the buffer (content
plus `'\n'`, or nothing at end of input) and the rest of the stream.  The
source's `== 0` end-of-input test is `raw = []` here, since a nonempty stream
always appends at least the terminator. -/
def readLine : Input → List Char × Input
  | [] => ([], [])
  | l :: rest => (l ++ ['\n'], rest)

/-- ASCII whitespace, the restriction of Rust's `char::is_whitespace` used by
`trim` and `split_whitespace`. -/
def isWs (c : Char) : Bool :=
  c == ' ' || c == '\t' || c == '\n' || c == '\r'

/-- `str::trim_start`. -/
def trimL (s : List Char) : List Char := s.dropWhile isWs

/-- `str::trim_end`. -/
def trimR (s : List Char) : List Char := (s.reverse.dropWhile isWs).reverse

/-- `str::trim`. -/
def trimC (s : List Char) : List Char := trimL (trimR s)

/-- `str::split(c)`: every maximal run between occurrences of `c`, empty
pieces kept, at least one piece always produced. -/
def splitOnChar (c : Char) : List Char → List (List Char)
  | [] => [[]]
  | a :: rest =>
    if a = c then [] :: splitOnChar c rest
    else
      match splitOnChar c rest with
      | p :: ps => (a :: p) :: ps
      | [] => [[a]]

/-- `str::split_whitespace`, via an accumulator for the token being read:
maximal nonempty runs of non-whitespace characters. -/
def splitWsAux : List Char → List Char → List (List Char)
  | [], acc => if acc = [] then [] else [acc.reverse]
  | c :: rest, acc =>
    if isWs c then
      if acc = [] then splitWsAux rest [] else acc.reverse :: splitWsAux rest []
    else splitWsAux rest (c :: acc)

/-- `str::split_whitespace`. -/
def splitWs (s : List Char) : List (List Char) := splitWsAux s []

/-- The pieces `str::lines` would split a buffer at: split at `'\n'`,
every piece kept (the trailing-terminator adjustment is in `linesOf`). -/
def splitOnNl (s : List Char) : List (List Char) := splitOnChar '\n' s

/-- `str::lines` of a buffer: no line for the empty buffer, and a final
terminator produces no empty last line. -/
def linesOf (s : List Char) : List (List Char) :=
  if s = [] then []
  else if s.getLast? = some '\n' then (splitOnNl s).dropLast
  else splitOnNl s

/-- `buf.lines().last()`. -/
def lastLineOpt (s : List Char) : Option (List Char) :=
  (linesOf s).getLast?

/-- The loop body of `pop_line`'s `while`: drop characters from the front of
the reversed buffer until a `'\n'` (kept) or nothing is left. -/
def dropToNl : List Char → List Char
  | [] => []
  | c :: rest => if c = '\n' then c :: rest else dropToNl rest

/-- `pop_line`: pop the last character, then pop until the buffer is empty or
ends with `'\n'` (the source works from the back; the model works on the
reversed buffer). -/
def pop_line (s : List Char) : List Char :=
  (dropToNl s.reverse.tail).reverse

/-- ASCII decimal digit. -/
def isDigit (c : Char) : Bool := '0' ≤ c && c ≤ '9'

/-- The numeric value of a nonempty all-digit token, `none` otherwise. -/
def digitsVal (s : List Char) : Option Nat :=
  if s = [] then none
  else if s.all isDigit then
    some (s.foldl (fun n c => 10 * n + (c.toNat - '0'.toNat)) 0)
  else none

/-- `i32::from_str`: optional single sign, then one or more digits, and the
value must fit in `i32` (overflow is a parse error in Rust). -/
def parse_i32 (s : List Char) : Option Int :=
  match s with
  | '+' :: rest =>
    match digitsVal rest with
    | some n => if n ≤ 2 ^ 31 - 1 then some (n : Int) else none
    | none => none
  | '-' :: rest =>
    match digitsVal rest with
    | some n => if n ≤ 2 ^ 31 then some (-(n : Int)) else none
    | none => none
  | _ =>
    match digitsVal s with
    | some n => if n ≤ 2 ^ 31 - 1 then some (n : Int) else none
    | none => none

/-- Lower-case an ASCII letter, for the case-insensitive special float
tokens. -/
def lowerAscii (c : Char) : Char :=
  if 'A' ≤ c && c ≤ 'Z' then Char.ofNat (c.toNat + 32) else c

/-- Exponent part of Rust's float grammar after the `e`/`E`: optional sign
then one or more digits and nothing else. -/
def expDigitsOk (s : List Char) : Bool :=
  match s with
  | '+' :: rest => (digitsVal rest).isSome
  | '-' :: rest => (digitsVal rest).isSome
  | _ => (digitsVal s).isSome

/-- `[Count] ['.' [Count]] [Exp]` with at least one mantissa digit, per
Rust's `f64::from_str` grammar. -/
def mantissaOk (s : List Char) : Bool :=
  let ds := s.takeWhile isDigit
  let r1 := s.dropWhile isDigit
  match r1 with
  | [] => !ds.isEmpty
  | '.' :: r2 =>
    let ds2 := r2.takeWhile isDigit
    let r3 := r2.dropWhile isDigit
    (!ds.isEmpty || !ds2.isEmpty) &&
      (match r3 with
       | [] => true
       | 'e' :: r4 => (!ds.isEmpty || !ds2.isEmpty) && expDigitsOk r4
       | 'E' :: r4 => (!ds.isEmpty || !ds2.isEmpty) && expDigitsOk r4
       | _ => false)
  | 'e' :: r4 => !ds.isEmpty && expDigitsOk r4
  | 'E' :: r4 => !ds.isEmpty && expDigitsOk r4
  | _ => false

/-- `f64::from_str` acceptance: optional sign, then `inf`, `infinity`, `nan`
(case-insensitively) or a decimal number with optional fraction and
exponent. -/
def parseF64Ok (s : List Char) : Bool :=
  let body :=
    match s with
    | '+' :: rest => rest
    | '-' :: rest => rest
    | _ => s
  let low := body.map lowerAscii
  low = "inf".toList || low = "infinity".toList || low = "nan".toList ||
    mantissaOk body

/-- A parsed `f64`, modelled by its source token: no claim inspects float
arithmetic, only whether the token parses. -/
abbrev F64Repr := List Char

/-- Shorthand for `String.toList`, used to write the format's tag literals
and concrete test inputs. -/
def str (s : String) : List Char := s.toList

/-! ## The format's tag constants (`const` items of the source) -/

def LHEF_TAG_OPEN : List Char := str "<LesHouchesEvents version="
def COMMENT_START : List Char := str "<!--"
def COMMENT_END : List Char := str "-->"
def HEADER_START : List Char := str "<header>"
def HEADER_END : List Char := str "</header>"
def INIT_START : List Char := str "<init>"
def INIT_END : List Char := str "</init>"
def EVENT_START : List Char := str "<event>"
def EVENT_END : List Char := str "</event>"
def LHEF_LAST_LINE : List Char := str "</LesHouchesEvents>"

/-! ## Errors and outcomes -/

/-- `enum ParseError` of the source, payloads carried verbatim. -/
inductive ParseError where
  | BadFirstLine : List Char → ParseError
  | BadHeaderStart : List Char → ParseError
  | BadEventStart : List Char → ParseError
  | MissingEntry : List Char → ParseError
  | ConversionError : List Char → ParseError
  | UnsupportedVersion : List Char → ParseError
  | MissingVersion : ParseError
  | EndOfFile : List Char → ParseError
deriving DecidableEq, Repr

/-- What a call into the decoder can do: return a value, return a
`ParseError` (the source's `Err(Box<ParseError>)`), or panic (`crash`: the
`unwrap` of `None` and the `with_capacity` capacity overflow). -/
inductive POutcome (α : Type) where
  | ok : α → POutcome α
  | err : ParseError → POutcome α
  | crash : POutcome α
deriving DecidableEq, Repr

/-- Error and panic propagation of the source's `?` operator. -/
def POutcome.bind {α β : Type} : POutcome α → (α → POutcome β) → POutcome β
  | .ok a, f => f a
  | .err e, _ => .err e
  | .crash, _ => .crash

instance : Monad POutcome where
  pure := .ok
  bind := POutcome.bind

/-! ## The field decoder (`fn parse<T>` of the source) -/

/-- `parse::<i32>(name, token)`: an absent token is `MissingEntry(name)`, an
unparseable one is `ConversionError(token)`. -/
def parseField_i32 (name : List Char) (text : Option (List Char)) :
    POutcome Int :=
  match text with
  | none => .err (.MissingEntry name)
  | some t =>
    match parse_i32 t with
    | some v => .ok v
    | none => .err (.ConversionError t)

/-- `parse::<f64>(name, token)`, the parsed value being the token itself
(see `F64Repr`). -/
def parseField_f64 (name : List Char) (text : Option (List Char)) :
    POutcome F64Repr :=
  match text with
  | none => .err (.MissingEntry name)
  | some t => if parseF64Ok t then .ok t else .err (.ConversionError t)

/-! ## `Vec::with_capacity` and the `i32 as usize` cast -/

/-- Rust's `as usize` on an `i32` value: reduction modulo `2^64` (64-bit
target), so a negative count becomes a number at least `2^63`. -/
def usizeOfI32 (n : Int) : Nat := (n % 2 ^ 64).toNat

/-- `Vec::<T>::with_capacity(cap)` panics with a capacity overflow exactly
when `cap * size_of::<T>()` exceeds `isize::MAX` (checked multiplication
included, since a `usize` overflow implies the bound is exceeded). -/
def capPanics (elemSize : Nat) (n : Int) : Bool :=
  2 ^ 63 - 1 < elemSize * usizeOfI32 n

/-- The four `with_capacity` calls of `parse_init`, in order: three
`Vec<f64>` (8 bytes per element) and one `Vec<i32>` (4 bytes). -/
def initCapsPanic (n : Int) : Bool :=
  capPanics 8 n || capPanics 8 n || capPanics 8 n || capPanics 4 n

/-- The seven `with_capacity` calls of `parse_event`, in order: `Vec<i32>`
twice, `Vec<[i32; 2]>` twice, `Vec<[f64; 5]>`, `Vec<f64>` twice. -/
def eventCapsPanic (n : Int) : Bool :=
  capPanics 4 n || capPanics 4 n || capPanics 8 n || capPanics 8 n ||
    capPanics 40 n || capPanics 8 n || capPanics 8 n

/-! ## Version negotiation (`fn parse_version`) -/

/-- The tail of `parse_version` once the first line is split at `'"'`: the
first piece must be the literal opening tag, the second is the version token
(absent, supported or unsupported), the third must be `">"`.  `raw` is the
line as read, carried by `BadFirstLine`. -/
def version_from_parts (parts : List (List Char)) (raw : List Char)
    (s1 : Input) : POutcome (List Char × Input) :=
  if parts.get? 0 ≠ some LHEF_TAG_OPEN then .err (.BadFirstLine raw)
  else
    match parts.get? 1 with
    | some v =>
      if v = str "1.0" ∨ v = str "2.0" ∨ v = str "3.0" then
        if parts.get? 2 ≠ some (str ">") then .err (.BadFirstLine raw)
        else .ok (v, s1)
      else .err (.UnsupportedVersion v)
    | none => .err .MissingVersion

/-- `fn parse_version`: read one line, split its trimmed text at `'"'` and
negotiate. -/
def parse_version (s : Input) : POutcome (List Char × Input) :=
  let (raw, s1) := readLine s
  version_from_parts (splitOnChar '"' (trimC raw)) raw s1

/-! ## Header accumulation (`fn parse_header` and its sub-loops) -/

/-- `fn parse_comment_header`: append lines to the header until one trims to
`-->`; end of input first is `EndOfFile("header")`.  The `unwrap` of
`lines().last()` is the `crash` arm. -/
def parse_comment_header : Input → List Char → POutcome (List Char × Input)
  | [], _ => .err (.EndOfFile (str "header"))
  | l :: rest, header =>
    let h := header ++ (l ++ ['\n'])
    match lastLineOpt h with
    | none => .crash
    | some ll =>
      if trimC ll = COMMENT_END then .ok (h, rest)
      else parse_comment_header rest h

/-- `fn parse_structured_header`: as the comment loop, closing at
`</header>`. -/
def parse_structured_header : Input → List Char → POutcome (List Char × Input)
  | [], _ => .err (.EndOfFile (str "header"))
  | l :: rest, header =>
    let h := header ++ (l ++ ['\n'])
    match lastLineOpt h with
    | none => .crash
    | some ll =>
      if trimC ll = HEADER_END then .ok (h, rest)
      else parse_structured_header rest h

/-- The loop of `fn parse_header`, with explicit fuel so the definition is
structurally recursive (the loop itself consumes at least one line per
iteration, so `stream.length + 1` units always suffice; `parse_header`
supplies them).  Each iteration reads one line — without an end-of-input
check, which is why an empty buffer at end of input reaches the `unwrap` of
`None` (`crash`) — and dispatches on the trimmed last line of the buffer. -/
def parse_header_core : Nat → Input → List Char → POutcome (List Char × Input)
  | 0, _, _ => .crash
  | fuel + 1, s, header =>
    let (raw, s1) := readLine s
    let h := header ++ raw
    match lastLineOpt h with
    | none => .crash
    | some ll =>
      if trimC ll = COMMENT_START then
        match parse_comment_header s1 h with
        | .ok (h2, s2) => parse_header_core fuel s2 h2
        | .err e => .err e
        | .crash => .crash
      else if trimC ll = HEADER_START then
        match parse_structured_header s1 h with
        | .ok (h2, s2) => parse_header_core fuel s2 h2
        | .err e => .err e
        | .crash => .crash
      else if trimC ll = INIT_START then .ok (pop_line h, s1)
      else .err (.BadHeaderStart (trimC ll))

/-- `fn parse_header`: run the loop on an initially empty buffer. -/
def parse_header (s : Input) : POutcome (List Char × Input) :=
  parse_header_core (s.length + 1) s []

/-! ## Run information (`fn parse_init` and `struct HEPRUP`) -/

/-- The decimal rendering of the 1-based index `format!` interpolates into a
per-row field name. -/
def natChars (n : Nat) : List Char := (Nat.repr n).toList

/-- `format!("BASE({})", i)`. -/
def idxName (base : String) (i : Nat) : List Char :=
  base.toList ++ '(' :: natChars i ++ [')']

/-- `format!("BASE({}, {})", i, j)`. -/
def idxName2 (base : String) (i j : Nat) : List Char :=
  base.toList ++ '(' :: natChars i ++ ',' :: ' ' :: natChars j ++ [')']

/-- The fixed-arity part of the run-information header line. -/
structure InitFields where
  IDBMUP : Int × Int
  EBMUP : F64Repr × F64Repr
  PDFGUP : Int × Int
  PDFSUP : Int × Int
  IDWTUP : Int
  NPRUP : Int
deriving DecidableEq, Repr

/-- Lines 178–198 of the source: split the first `<init>` body line on
whitespace and decode the ten leading tokens positionally. -/
def parse_init_fields (raw : List Char) : POutcome InitFields := do
  let toks := splitWs raw
  let idbmup1 ← parseField_i32 (str "IDBMUP(1)") (toks.get? 0)
  let idbmup2 ← parseField_i32 (str "IDBMUP(2)") (toks.get? 1)
  let ebmup1 ← parseField_f64 (str "EBMUP(1)") (toks.get? 2)
  let ebmup2 ← parseField_f64 (str "EBMUP(2)") (toks.get? 3)
  let pdfgup1 ← parseField_i32 (str "PDFGUP(1)") (toks.get? 4)
  let pdfgup2 ← parseField_i32 (str "PDFGUP(2)") (toks.get? 5)
  let pdfsup1 ← parseField_i32 (str "PDFSUP(1)") (toks.get? 6)
  let pdfsup2 ← parseField_i32 (str "PDFSUP(2)") (toks.get? 7)
  let idwtup ← parseField_i32 (str "IDWTUP") (toks.get? 8)
  let nprup ← parseField_i32 (str "NPRUP") (toks.get? 9)
  pure ⟨(idbmup1, idbmup2), (ebmup1, ebmup2), (pdfgup1, pdfgup2),
    (pdfsup1, pdfsup2), idwtup, nprup⟩

/-- The per-subprocess table of `parse_init`: `n` remaining rows, the next
row's 1-based index `i`, one line per row split into four decoded tokens.
The source pushes onto four vectors; the model conses and returns the four
columns. -/
def parse_init_rows : Nat → Nat → Input →
    POutcome ((List F64Repr × List F64Repr × List F64Repr × List Int) × Input)
  | 0, _, s => .ok (([], [], [], []), s)
  | n + 1, i, s => do
    let (raw, s1) := readLine s
    let toks := splitWs raw
    let xsec ← parseField_f64 (idxName "XSECUP" i) (toks.get? 0)
    let xerr ← parseField_f64 (idxName "XERRUP" i) (toks.get? 1)
    let xmax ← parseField_f64 (idxName "XMAXUP" i) (toks.get? 2)
    let lpr ← parseField_i32 (idxName "LPRUP" i) (toks.get? 3)
    let ((xs, xe, xm, lp), s2) ← parse_init_rows n (i + 1) s1
    pure ((xsec :: xs, xerr :: xe, xmax :: xm, lpr :: lp), s2)

/-- Lines 212–221 of the source: append lines to the info buffer until the
last line — untrimmed — equals `</init>`, then pop that closing line; end of
input first is `EndOfFile("init")`. -/
def init_info_loop (info : List Char) : Input → POutcome (List Char × Input)
  | [] => .err (.EndOfFile (str "init"))
  | l :: rest =>
    let info1 := info ++ (l ++ ['\n'])
    match lastLineOpt info1 with
    | none => .crash
    | some ll =>
      if ll = INIT_END then .ok (pop_line info1, rest)
      else init_info_loop info1 rest

/-- `struct HEPRUP`. -/
structure HEPRUP where
  IDBMUP : Int × Int
  EBMUP : F64Repr × F64Repr
  PDFGUP : Int × Int
  PDFSUP : Int × Int
  IDWTUP : Int
  NPRUP : Int
  XSECUP : List F64Repr
  XERRUP : List F64Repr
  XMAXUP : List F64Repr
  LPRUP : List Int
  info : List Char
deriving DecidableEq, Repr

/-- `fn parse_init`: the header line, the four `with_capacity` reservations
(which panic for a sign-converted negative count), `NPRUP` table rows, then
the info capture loop. -/
def parse_init (s : Input) : POutcome (HEPRUP × Input) :=
  let (raw, s1) := readLine s
  match parse_init_fields raw with
  | .err e => .err e
  | .crash => .crash
  | .ok f =>
    if initCapsPanic f.NPRUP then .crash
    else
      match parse_init_rows f.NPRUP.toNat 1 s1 with
      | .err e => .err e
      | .crash => .crash
      | .ok ((xs, xe, xm, lp), s2) =>
        match init_info_loop [] s2 with
        | .err e => .err e
        | .crash => .crash
        | .ok (info, s3) =>
          .ok (⟨f.IDBMUP, f.EBMUP, f.PDFGUP, f.PDFSUP, f.IDWTUP, f.NPRUP,
            xs, xe, xm, lp, info⟩, s3)

/-! ## Events (`fn parse_event` and `struct HEPEUP`) -/

/-- The fixed-arity part of the event header line. -/
structure EventFields where
  NUP : Int
  IDRUP : Int
  XWGTUP : F64Repr
  SCALUP : F64Repr
  AQEDUP : F64Repr
  AQCDUP : F64Repr
deriving DecidableEq, Repr

/-- Lines 234–242 of the source: the six leading tokens of the event header
line. -/
def parse_event_fields (raw : List Char) : POutcome EventFields := do
  let toks := splitWs raw
  let nup ← parseField_i32 (str "NUP") (toks.get? 0)
  let idrup ← parseField_i32 (str "IDRUP") (toks.get? 1)
  let xwgtup ← parseField_f64 (str "XWGTUP") (toks.get? 2)
  let scalup ← parseField_f64 (str "SCALUP") (toks.get? 3)
  let aqedup ← parseField_f64 (str "AQEDUP") (toks.get? 4)
  let aqcdup ← parseField_f64 (str "AQCDUP") (toks.get? 5)
  pure ⟨nup, idrup, xwgtup, scalup, aqedup, aqcdup⟩

/-- The per-particle columns built by `parse_event`'s row loop. -/
structure EventRows where
  IDUP : List Int
  ISTUP : List Int
  MOTHUP : List (Int × Int)
  ICOLUP : List (Int × Int)
  PUP : List (F64Repr × F64Repr × F64Repr × F64Repr × F64Repr)
  VTIMUP : List F64Repr
  SPINUP : List F64Repr
deriving DecidableEq, Repr

/-- The per-particle table of `parse_event`: `n` remaining rows, next row's
1-based index `i`, thirteen decoded tokens per line. -/
def parse_event_rows : Nat → Nat → Input → POutcome (EventRows × Input)
  | 0, _, s => .ok (⟨[], [], [], [], [], [], []⟩, s)
  | n + 1, i, s => do
    let (raw, s1) := readLine s
    let toks := splitWs raw
    let idup ← parseField_i32 (idxName "IDUP" i) (toks.get? 0)
    let istup ← parseField_i32 (idxName "ISTUP" i) (toks.get? 1)
    let moth1 ← parseField_i32 (idxName2 "MOTHUP" i 1) (toks.get? 2)
    let moth2 ← parseField_i32 (idxName2 "MOTHUP" i 2) (toks.get? 3)
    let icol1 ← parseField_i32 (idxName2 "ICOLUP" i 1) (toks.get? 4)
    let icol2 ← parseField_i32 (idxName2 "ICOLUP" i 2) (toks.get? 5)
    let pup1 ← parseField_f64 (idxName2 "PUP" i 1) (toks.get? 6)
    let pup2 ← parseField_f64 (idxName2 "PUP" i 2) (toks.get? 7)
    let pup3 ← parseField_f64 (idxName2 "PUP" i 3) (toks.get? 8)
    let pup4 ← parseField_f64 (idxName2 "PUP" i 4) (toks.get? 9)
    let pup5 ← parseField_f64 (idxName2 "PUP" i 5) (toks.get? 10)
    let vtim ← parseField_f64 (idxName "VTIMUP" i) (toks.get? 11)
    let spin ← parseField_f64 (idxName "SPINUP" i) (toks.get? 12)
    let (rows, s2) ← parse_event_rows n (i + 1) s1
    pure (⟨idup :: rows.IDUP, istup :: rows.ISTUP,
      (moth1, moth2) :: rows.MOTHUP, (icol1, icol2) :: rows.ICOLUP,
      (pup1, pup2, pup3, pup4, pup5) :: rows.PUP,
      vtim :: rows.VTIMUP, spin :: rows.SPINUP⟩, s2)

/-- Lines 274–283 of the source: append lines to the info buffer until the
last line — trimmed — equals `</event>`, then pop that closing line; end of
input first is `EndOfFile("event")`. -/
def event_info_loop (info : List Char) : Input → POutcome (List Char × Input)
  | [] => .err (.EndOfFile (str "event"))
  | l :: rest =>
    let info1 := info ++ (l ++ ['\n'])
    match lastLineOpt info1 with
    | none => .crash
    | some ll =>
      if trimC ll = EVENT_END then .ok (pop_line info1, rest)
      else event_info_loop info1 rest

/-- `struct HEPEUP`. -/
structure HEPEUP where
  NUP : Int
  IDRUP : Int
  XWGTUP : F64Repr
  SCALUP : F64Repr
  AQEDUP : F64Repr
  AQCDUP : F64Repr
  IDUP : List Int
  ISTUP : List Int
  MOTHUP : List (Int × Int)
  ICOLUP : List (Int × Int)
  PUP : List (F64Repr × F64Repr × F64Repr × F64Repr × F64Repr)
  VTIMUP : List F64Repr
  SPINUP : List F64Repr
  info : List Char
deriving DecidableEq, Repr

/-- `fn parse_event`: the header line, the seven `with_capacity`
reservations (panicking for a negative `NUP`), `NUP` particle rows, then the
trimmed-closer info capture loop. -/
def parse_event (s : Input) : POutcome (HEPEUP × Input) :=
  let (raw, s1) := readLine s
  match parse_event_fields raw with
  | .err e => .err e
  | .crash => .crash
  | .ok f =>
    if eventCapsPanic f.NUP then .crash
    else
      match parse_event_rows f.NUP.toNat 1 s1 with
      | .err e => .err e
      | .crash => .crash
      | .ok (rows, s2) =>
        match event_info_loop [] s2 with
        | .err e => .err e
        | .crash => .crash
        | .ok (info, s3) =>
          .ok (⟨f.NUP, f.IDRUP, f.XWGTUP, f.SCALUP, f.AQEDUP, f.AQCDUP,
            rows.IDUP, rows.ISTUP, rows.MOTHUP, rows.ICOLUP, rows.PUP,
            rows.VTIMUP, rows.SPINUP, info⟩, s3)

/-! ## The reader (`impl Reader`) -/

/-- A constructed `Reader`: the negotiated version, the captured header, the
run information, and the stream position just before the first event. -/
structure ReaderState where
  version : List Char
  header : List Char
  heprup : HEPRUP
  stream : Input
deriving DecidableEq, Repr

/-- `Reader::new`: version, header, run information, in that order. -/
def reader_new (s : Input) : POutcome ReaderState := do
  let (v, s1) ← parse_version s
  let (h, s2) ← parse_header s1
  let (hep, s3) ← parse_init s2
  pure ⟨v, h, hep, s3⟩

/-- `Reader::event`: read one line; `<event>` (trimmed) starts an event,
`</LesHouchesEvents>` (trimmed) is the end-of-events sentinel `none`,
anything else is `BadEventStart` carrying the line as read. -/
def reader_event (s : Input) : POutcome (Option HEPEUP × Input) :=
  let (raw, s1) := readLine s
  if trimC raw = EVENT_START then
    match parse_event s1 with
    | .ok (e, s2) => .ok (some e, s2)
    | .err e => .err e
    | .crash => .crash
  else if trimC raw = LHEF_LAST_LINE then .ok (none, s1)
  else .err (.BadEventStart raw)

/-- `k` consecutive `Reader::event` calls that must each yield an event:
the stream afterwards, or `none` if any call fails or hits the sentinel
early. -/
def runK : Nat → Input → Option Input
  | 0, s => some s
  | k + 1, s =>
    match reader_event s with
    | .ok (some _, s1) => runK k s1
    | _ => none

/-- A stream positioned at `k` parseable event blocks followed by the
document terminator: the shape §4.5 of the spec calls a valid document's
event tail. -/
inductive ValidTail : Nat → Input → Prop where
  | last : ∀ t rest, trimC t = LHEF_LAST_LINE → ValidTail 0 (t :: rest)
  | step : ∀ l s e s1 k, trimC l = EVENT_START → parse_event s = .ok (e, s1) →
      ValidTail k s1 → ValidTail (k + 1) (l :: s)

/-- Lines whose content a real `read_line` could have produced: no interior
newline. -/
def NlFree (ls : List Line) : Prop := ∀ l ∈ ls, '\n' ∉ l

instance (ls : List Line) : Decidable (NlFree ls) :=
  inferInstanceAs (Decidable (∀ l ∈ ls, '\n' ∉ l))

/-- The raw text `read_line` accumulates for a list of lines: each line's
content followed by its terminator. -/
def rawConcat : List Line → List Char
  | [] => []
  | l :: ls => l ++ '\n' :: rawConcat ls

/-! ## Lemmas: outcome plumbing -/

theorem pure_eq_ok {α : Type} (a : α) : (pure a : POutcome α) = .ok a := rfl

theorem bind_eq_ok {α β : Type} {x : POutcome α} {f : α → POutcome β}
    {b : β} : x >>= f = .ok b ↔ ∃ a, x = .ok a ∧ f a = .ok b := by
  cases x <;> simp [Bind.bind, POutcome.bind]

theorem bind_eq_err {α β : Type} {x : POutcome α} {f : α → POutcome β}
    {e : ParseError} :
    x >>= f = .err e ↔ x = .err e ∨ ∃ a, x = .ok a ∧ f a = .err e := by
  cases x <;> simp [Bind.bind, POutcome.bind]

theorem ok_bind {α β : Type} (a : α) (f : α → POutcome β) :
    (POutcome.ok a >>= f) = f a := rfl

theorem err_bind {α β : Type} (e : ParseError) (f : α → POutcome β) :
    (POutcome.err e >>= f : POutcome β) = .err e := rfl

/-! ## Lemmas: characters, trimming and splitting -/

theorem trimR_append_nl (l : List Char) : trimR (l ++ ['\n']) = trimR l := by
  simp [trimR, List.dropWhile, isWs]

theorem trimC_append_nl (l : List Char) : trimC (l ++ ['\n']) = trimC l := by
  simp [trimC, trimR_append_nl]

theorem splitOnChar_ne_nil (c : Char) (s : List Char) :
    splitOnChar c s ≠ [] := by
  induction s with
  | nil => simp [splitOnChar]
  | cons a rest ih =>
    simp only [splitOnChar]
    split
    · simp
    · cases h : splitOnChar c rest with
      | nil => simp
      | cons p ps => simp

theorem splitOnChar_cons_eq (c : Char) (rest : List Char) :
    splitOnChar c (c :: rest) = [] :: splitOnChar c rest := by
  simp [splitOnChar]

theorem splitOnChar_cons_ne {c a : Char} (rest : List Char) (h : ¬a = c) :
    splitOnChar c (a :: rest) =
      match splitOnChar c rest with
      | p :: ps => (a :: p) :: ps
      | [] => [[a]] := by
  simp [splitOnChar, h]

theorem splitOnChar_no_char {c : Char} {s : List Char} (h : c ∉ s) :
    splitOnChar c s = [s] := by
  induction s with
  | nil => rfl
  | cons a rest ih =>
    simp only [List.mem_cons, not_or] at h
    have hne : ¬a = c := fun e => h.1 e.symm
    rw [splitOnChar_cons_ne rest hne, ih h.2]

theorem splitOnChar_append {c : Char} {a : List Char} (b : List Char)
    (h : c ∉ a) : splitOnChar c (a ++ c :: b) = a :: splitOnChar c b := by
  induction a with
  | nil => simp [splitOnChar_cons_eq]
  | cons x xs ih =>
    simp only [List.mem_cons, not_or] at h
    have hne : ¬x = c := fun e => h.1 e.symm
    rw [List.cons_append, splitOnChar_cons_ne _ hne, ih h.2]

theorem splitOnChar_concat (c : Char) (s : List Char) :
    splitOnChar c (s ++ [c]) = splitOnChar c s ++ [[]] := by
  induction s with
  | nil => simp [splitOnChar]
  | cons a rest ih =>
    by_cases hac : a = c
    · subst hac
      rw [List.cons_append, splitOnChar_cons_eq, splitOnChar_cons_eq, ih]
      rfl
    · rw [List.cons_append, splitOnChar_cons_ne _ hac,
        splitOnChar_cons_ne _ hac, ih]
      cases h : splitOnChar c rest with
      | nil => exact absurd h (splitOnChar_ne_nil c rest)
      | cons p ps => rfl

/-- Rejoining the pieces of a split with the splitting character. -/
def joinC (c : Char) : List (List Char) → List Char
  | [] => []
  | [p] => p
  | p :: ps => p ++ c :: joinC c ps

theorem joinC_splitOnChar (c : Char) (s : List Char) :
    joinC c (splitOnChar c s) = s := by
  induction s with
  | nil => rfl
  | cons a rest ih =>
    by_cases hac : a = c
    · rw [hac, splitOnChar_cons_eq]
      cases h : splitOnChar c rest with
      | nil => exact absurd h (splitOnChar_ne_nil c rest)
      | cons p ps =>
        rw [h] at ih
        simp only [joinC, List.nil_append]
        rw [ih]
    · rw [splitOnChar_cons_ne _ hac]
      cases h : splitOnChar c rest with
      | nil => exact absurd h (splitOnChar_ne_nil c rest)
      | cons p ps =>
        rw [h] at ih
        cases ps with
        | nil =>
          simp only [joinC] at ih ⊢
          rw [ih]
        | cons q qs =>
          simp only [joinC] at ih ⊢
          rw [List.cons_append, ih]

theorem mem_splitOnChar_not_mem {c : Char} {s p : List Char}
    (h : p ∈ splitOnChar c s) : c ∉ p := by
  induction s generalizing p with
  | nil =>
    simp only [splitOnChar, List.mem_singleton] at h
    subst h; simp
  | cons a rest ih =>
    by_cases hac : a = c
    · rw [hac, splitOnChar_cons_eq] at h
      rcases List.mem_cons.mp h with rfl | h2
      · simp
      · exact ih h2
    · rw [splitOnChar_cons_ne _ hac] at h
      cases hs : splitOnChar c rest with
      | nil => exact absurd hs (splitOnChar_ne_nil c rest)
      | cons q qs =>
        rw [hs] at h
        rcases List.mem_cons.mp h with rfl | h2
        · have hq : c ∉ q := ih (by rw [hs]; exact List.mem_cons_self q qs)
          simp only [List.mem_cons, not_or]
          exact ⟨fun hc => hac hc.symm, hq⟩
        · exact ih (by rw [hs]; exact List.mem_cons.mpr (Or.inr h2))

/-! ## Lemmas: the raw text of a list of lines -/

theorem rawConcat_append (a b : List Line) :
    rawConcat (a ++ b) = rawConcat a ++ rawConcat b := by
  induction a with
  | nil => rfl
  | cons l ls ih => simp [rawConcat, ih]

theorem rawConcat_snoc (ls : List Line) (l : Line) :
    rawConcat (ls ++ [l]) = rawConcat ls ++ (l ++ ['\n']) := by
  rw [rawConcat_append]; rfl

theorem rawConcat_ne_nil {ls : List Line} (h : ls ≠ []) :
    rawConcat ls ≠ [] := by
  cases ls with
  | nil => exact absurd rfl h
  | cons l ls => simp [rawConcat]

theorem getLast?_rawConcat {ls : List Line} (h : ls ≠ []) :
    (rawConcat ls).getLast? = some '\n' := by
  induction ls with
  | nil => exact absurd rfl h
  | cons l ls ih =>
    cases ls with
    | nil =>
      show (l ++ '\n' :: ([] : List Char)).getLast? = some '\n'
      exact List.getLast?_concat l
    | cons m ms =>
      show (l ++ '\n' :: rawConcat (m :: ms)).getLast? = some '\n'
      rw [show l ++ '\n' :: rawConcat (m :: ms) =
          (l ++ ['\n']) ++ rawConcat (m :: ms) by simp]
      rw [List.getLast?_append, ih (by simp)]
      rfl

theorem NlFree.head {l : Line} {ls : List Line} (h : NlFree (l :: ls)) :
    '\n' ∉ l := h l (List.mem_cons_self l ls)

theorem NlFree.tail {l : Line} {ls : List Line} (h : NlFree (l :: ls)) :
    NlFree ls := fun x hx => h x (List.mem_cons.mpr (Or.inr hx))

theorem NlFree.append {a b : List Line} (ha : NlFree a) (hb : NlFree b) :
    NlFree (a ++ b) := by
  intro x hx
  rcases List.mem_append.mp hx with h1 | h2
  · exact ha x h1
  · exact hb x h2

theorem NlFree.snoc {ls : List Line} {l : Line} (h : NlFree ls)
    (hl : '\n' ∉ l) : NlFree (ls ++ [l]) := by
  intro x hx
  rcases List.mem_append.mp hx with h1 | h2
  · exact h x h1
  · rw [List.mem_singleton] at h2
    subst h2
    exact hl

theorem splitOnNl_rawConcat {ls : List Line} (h : NlFree ls) :
    splitOnNl (rawConcat ls) = ls ++ [[]] := by
  induction ls with
  | nil => rfl
  | cons l ls ih =>
    show splitOnChar '\n' (l ++ '\n' :: rawConcat ls) = (l :: ls) ++ [[]]
    rw [splitOnChar_append _ h.head]
    rw [show splitOnChar '\n' (rawConcat ls) = splitOnNl (rawConcat ls)
        from rfl]
    rw [ih h.tail]
    rfl

theorem linesOf_rawConcat {ls : List Line} (h : NlFree ls) :
    linesOf (rawConcat ls) = ls := by
  cases hl : ls with
  | nil => rfl
  | cons l ls' =>
    rw [← hl]
    have hne : ls ≠ [] := by rw [hl]; simp
    unfold linesOf
    rw [if_neg (rawConcat_ne_nil hne), if_pos (getLast?_rawConcat hne),
      splitOnNl_rawConcat h]
    exact List.dropLast_concat

theorem lastLineOpt_snoc {ls : List Line} {l : Line} (hls : NlFree ls)
    (hl : '\n' ∉ l) :
    lastLineOpt (rawConcat ls ++ (l ++ ['\n'])) = some l := by
  rw [show rawConcat ls ++ (l ++ ['\n']) = rawConcat (ls ++ [l])
      from (rawConcat_snoc ls l).symm]
  unfold lastLineOpt
  rw [linesOf_rawConcat (hls.snoc hl)]
  exact List.getLast?_concat _

theorem eq_snoc_of_getLast? {s : List Char} {a : Char}
    (h : s.getLast? = some a) : ∃ b, s = b ++ [a] := by
  have h2 : s.reverse.head? = some a := by rw [List.head?_reverse]; exact h
  cases hr : s.reverse with
  | nil => rw [hr] at h2; simp at h2
  | cons c t =>
    rw [hr] at h2
    simp only [List.head?_cons, Option.some.injEq] at h2
    refine ⟨t.reverse, ?_⟩
    have hs := congrArg List.reverse hr
    rw [List.reverse_reverse] at hs
    rw [hs, List.reverse_cons, h2]

theorem cons_getLast?_ne_none {α : Type} (a : α) (as : List α) :
    (a :: as).getLast? ≠ none := by
  induction as generalizing a with
  | nil => simp
  | cons b bs ih => rw [List.getLast?_cons_cons]; exact ih b

theorem linesOf_ne_nil {s : List Char} (h : s ≠ []) : linesOf s ≠ [] := by
  unfold linesOf
  rw [if_neg h]
  by_cases hnl : s.getLast? = some '\n'
  · rw [if_pos hnl]
    obtain ⟨b, rfl⟩ := eq_snoc_of_getLast? hnl
    rw [show splitOnNl (b ++ ['\n']) = splitOnNl b ++ [[]]
        from splitOnChar_concat '\n' b]
    rw [List.dropLast_concat]
    exact splitOnChar_ne_nil _ _
  · rw [if_neg hnl]
    exact splitOnChar_ne_nil _ _

theorem dropToNl_append {a : List Char} (b : List Char) (h : '\n' ∉ a) :
    dropToNl (a ++ b) = dropToNl b := by
  induction a with
  | nil => rfl
  | cons x xs ih =>
    simp only [List.mem_cons, not_or] at h
    rw [List.cons_append]
    rw [show dropToNl (x :: (xs ++ b)) =
        if x = '\n' then x :: (xs ++ b) else dropToNl (xs ++ b) from rfl]
    rw [if_neg (fun e => h.1 e.symm)]
    exact ih h.2

theorem rawConcat_reverse_head {ls : List Line} (h : ls ≠ []) :
    ∃ t, (rawConcat ls).reverse = '\n' :: t := by
  have h2 : (rawConcat ls).reverse.head? = (rawConcat ls).getLast? :=
    List.head?_reverse _
  rw [getLast?_rawConcat h] at h2
  cases hr : (rawConcat ls).reverse with
  | nil => rw [hr] at h2; simp at h2
  | cons c t =>
    rw [hr] at h2
    simp only [List.head?_cons, Option.some.injEq] at h2
    exact ⟨t, by rw [h2]⟩

theorem pop_line_snoc {ls : List Line} {l : Line}
    (hl : '\n' ∉ l) :
    pop_line (rawConcat ls ++ (l ++ ['\n'])) = rawConcat ls := by
  unfold pop_line
  have hrev : (rawConcat ls ++ (l ++ ['\n'])).reverse =
      '\n' :: (l.reverse ++ (rawConcat ls).reverse) := by
    simp [List.reverse_append]
  rw [hrev]
  simp only [List.tail_cons]
  rw [dropToNl_append _ (by simpa using hl)]
  cases hcase : ls with
  | nil => simp [rawConcat, dropToNl]
  | cons m ms =>
    rw [← hcase]
    have hne : ls ≠ [] := by rw [hcase]; simp
    obtain ⟨t, ht⟩ := rawConcat_reverse_head hne
    rw [ht]
    unfold dropToNl
    rw [if_pos rfl, ← ht, List.reverse_reverse]

/-! ## Lemmas: one step of each capture loop -/

theorem init_info_step {ls : List Line} {l : Line} (hls : NlFree ls)
    (hl : '\n' ∉ l) (rest : Input) :
    init_info_loop (rawConcat ls) (l :: rest) =
      if l = INIT_END then .ok (rawConcat ls, rest)
      else init_info_loop (rawConcat (ls ++ [l])) rest := by
  have h1 := lastLineOpt_snoc hls hl
  simp only [init_info_loop, h1]
  have h2 : pop_line (rawConcat ls ++ (l ++ ['\n'])) = rawConcat ls :=
    pop_line_snoc hl
  simp only [h2]
  simp only [← rawConcat_snoc]

theorem event_info_step {ls : List Line} {l : Line} (hls : NlFree ls)
    (hl : '\n' ∉ l) (rest : Input) :
    event_info_loop (rawConcat ls) (l :: rest) =
      if trimC l = EVENT_END then .ok (rawConcat ls, rest)
      else event_info_loop (rawConcat (ls ++ [l])) rest := by
  have h1 := lastLineOpt_snoc hls hl
  simp only [event_info_loop, h1]
  have h2 : pop_line (rawConcat ls ++ (l ++ ['\n'])) = rawConcat ls :=
    pop_line_snoc hl
  simp only [h2]
  simp only [← rawConcat_snoc]

theorem comment_step {hs : List Line} {l : Line} (hhs : NlFree hs)
    (hl : '\n' ∉ l) (rest : Input) :
    parse_comment_header (l :: rest) (rawConcat hs) =
      if trimC l = COMMENT_END then .ok (rawConcat (hs ++ [l]), rest)
      else parse_comment_header rest (rawConcat (hs ++ [l])) := by
  have h1 := lastLineOpt_snoc hhs hl
  simp only [parse_comment_header, h1]
  simp only [← rawConcat_snoc]

theorem structured_step {hs : List Line} {l : Line} (hhs : NlFree hs)
    (hl : '\n' ∉ l) (rest : Input) :
    parse_structured_header (l :: rest) (rawConcat hs) =
      if trimC l = HEADER_END then .ok (rawConcat (hs ++ [l]), rest)
      else parse_structured_header rest (rawConcat (hs ++ [l])) := by
  have h1 := lastLineOpt_snoc hhs hl
  simp only [parse_structured_header, h1]
  simp only [← rawConcat_snoc]

/-! ## Lemmas: a capture loop that never sees its closer hits end of input -/

theorem init_info_exhaust {ls hs : List Line} (hhs : NlFree hs)
    (hls : NlFree ls) (h : ∀ l ∈ ls, l ≠ INIT_END) :
    init_info_loop (rawConcat hs) ls = .err (.EndOfFile (str "init")) := by
  induction ls generalizing hs with
  | nil => rfl
  | cons l rest ih =>
    rw [init_info_step hhs hls.head rest,
      if_neg (h l (List.mem_cons_self l rest))]
    exact ih (hhs.snoc hls.head) hls.tail
      (fun x hx => h x (List.mem_cons.mpr (Or.inr hx)))

theorem event_info_exhaust {ls hs : List Line} (hhs : NlFree hs)
    (hls : NlFree ls) (h : ∀ l ∈ ls, trimC l ≠ EVENT_END) :
    event_info_loop (rawConcat hs) ls = .err (.EndOfFile (str "event")) := by
  induction ls generalizing hs with
  | nil => rfl
  | cons l rest ih =>
    rw [event_info_step hhs hls.head rest,
      if_neg (h l (List.mem_cons_self l rest))]
    exact ih (hhs.snoc hls.head) hls.tail
      (fun x hx => h x (List.mem_cons.mpr (Or.inr hx)))

theorem comment_exhaust {ls hs : List Line} (hhs : NlFree hs)
    (hls : NlFree ls) (h : ∀ l ∈ ls, trimC l ≠ COMMENT_END) :
    parse_comment_header ls (rawConcat hs) =
      .err (.EndOfFile (str "header")) := by
  induction ls generalizing hs with
  | nil => rfl
  | cons l rest ih =>
    rw [comment_step hhs hls.head rest,
      if_neg (h l (List.mem_cons_self l rest))]
    exact ih (hhs.snoc hls.head) hls.tail
      (fun x hx => h x (List.mem_cons.mpr (Or.inr hx)))

theorem structured_exhaust {ls hs : List Line} (hhs : NlFree hs)
    (hls : NlFree ls) (h : ∀ l ∈ ls, trimC l ≠ HEADER_END) :
    parse_structured_header ls (rawConcat hs) =
      .err (.EndOfFile (str "header")) := by
  induction ls generalizing hs with
  | nil => rfl
  | cons l rest ih =>
    rw [structured_step hhs hls.head rest,
      if_neg (h l (List.mem_cons_self l rest))]
    exact ih (hhs.snoc hls.head) hls.tail
      (fun x hx => h x (List.mem_cons.mpr (Or.inr hx)))

/-! ## Lemmas: a comment or structured block is consumed whole -/

theorem comment_block {body : List Line} (hbody : NlFree body)
    (hno : ∀ b ∈ body, trimC b ≠ COMMENT_END) {c : Line} (hc : '\n' ∉ c)
    (hcEnd : trimC c = COMMENT_END) {hs : List Line} (hhs : NlFree hs)
    (rest : Input) :
    parse_comment_header (body ++ c :: rest) (rawConcat hs) =
      .ok (rawConcat (hs ++ body ++ [c]), rest) := by
  induction body generalizing hs with
  | nil =>
    rw [List.nil_append, comment_step hhs hc, if_pos hcEnd]
    simp
  | cons b body ih =>
    rw [List.cons_append, comment_step hhs hbody.head,
      if_neg (hno b (List.mem_cons_self b body))]
    rw [ih hbody.tail (fun x hx => hno x (List.mem_cons.mpr (Or.inr hx)))
      (hhs.snoc hbody.head)]
    simp

theorem structured_block {body : List Line} (hbody : NlFree body)
    (hno : ∀ b ∈ body, trimC b ≠ HEADER_END) {c : Line} (hc : '\n' ∉ c)
    (hcEnd : trimC c = HEADER_END) {hs : List Line} (hhs : NlFree hs)
    (rest : Input) :
    parse_structured_header (body ++ c :: rest) (rawConcat hs) =
      .ok (rawConcat (hs ++ body ++ [c]), rest) := by
  induction body generalizing hs with
  | nil =>
    rw [List.nil_append, structured_step hhs hc, if_pos hcEnd]
    simp
  | cons b body ih =>
    rw [List.cons_append, structured_step hhs hbody.head,
      if_neg (hno b (List.mem_cons_self b body))]
    rw [ih hbody.tail (fun x hx => hno x (List.mem_cons.mpr (Or.inr hx)))
      (hhs.snoc hbody.head)]
    simp

/-! ## Lemmas: the header loop's fuel is irrelevant once sufficient -/

theorem comment_length {s : Input} {h h2 : List Char} {s2 : Input}
    (heq : parse_comment_header s h = .ok (h2, s2)) :
    s2.length ≤ s.length := by
  induction s generalizing h with
  | nil => simp [parse_comment_header] at heq
  | cons l rest ih =>
    simp only [parse_comment_header] at heq
    cases hll : lastLineOpt (h ++ (l ++ ['\n'])) with
    | none => simp only [hll] at heq; cases heq
    | some ll =>
      simp only [hll] at heq
      by_cases hE : trimC ll = COMMENT_END
      · rw [if_pos hE] at heq
        simp only [POutcome.ok.injEq, Prod.mk.injEq] at heq
        rw [← heq.2]
        simp
      · rw [if_neg hE] at heq
        exact le_trans (ih heq) (by simp)

theorem structured_length {s : Input} {h h2 : List Char} {s2 : Input}
    (heq : parse_structured_header s h = .ok (h2, s2)) :
    s2.length ≤ s.length := by
  induction s generalizing h with
  | nil => simp [parse_structured_header] at heq
  | cons l rest ih =>
    simp only [parse_structured_header] at heq
    cases hll : lastLineOpt (h ++ (l ++ ['\n'])) with
    | none => simp only [hll] at heq; cases heq
    | some ll =>
      simp only [hll] at heq
      by_cases hE : trimC ll = HEADER_END
      · rw [if_pos hE] at heq
        simp only [POutcome.ok.injEq, Prod.mk.injEq] at heq
        rw [← heq.2]
        simp
      · rw [if_neg hE] at heq
        exact le_trans (ih heq) (by simp)

theorem parse_header_core_fuel_nil {f1 f2 : Nat} (hf1 : 0 < f1)
    (hf2 : 0 < f2) (h : List Char) :
    parse_header_core f1 [] h = parse_header_core f2 [] h := by
  cases f1 with
  | zero => omega
  | succ a =>
    cases f2 with
    | zero => omega
    | succ b =>
      simp only [parse_header_core, readLine]
      cases lastLineOpt (h ++ []) with
      | none => rfl
      | some ll =>
        by_cases h1 : trimC ll = COMMENT_START
        · simp only [if_pos h1]
          simp [parse_comment_header]
        · simp only [if_neg h1]
          by_cases h2 : trimC ll = HEADER_START
          · simp only [if_pos h2]
            simp [parse_structured_header]
          · simp only [if_neg h2]

theorem parse_header_core_fuel :
    ∀ (n : Nat) (s : Input), s.length ≤ n → ∀ {f1 f2 : Nat},
      s.length < f1 → s.length < f2 → ∀ h,
      parse_header_core f1 s h = parse_header_core f2 s h := by
  intro n
  induction n with
  | zero =>
    intro s hs f1 f2 hf1 hf2 h
    have : s = [] := List.length_eq_zero.mp (Nat.le_zero.mp hs)
    subst this
    exact parse_header_core_fuel_nil hf1 hf2 h
  | succ n ih =>
    intro s hs f1 f2 hf1 hf2 h
    cases s with
    | nil => exact parse_header_core_fuel_nil hf1 hf2 h
    | cons l rest =>
      cases f1 with
      | zero => simp at hf1
      | succ a =>
        cases f2 with
        | zero => simp at hf2
        | succ b =>
          simp only [parse_header_core, readLine]
          cases lastLineOpt (h ++ (l ++ ['\n'])) with
          | none => rfl
          | some ll =>
            simp only [List.length_cons] at hs hf1 hf2
            by_cases h1 : trimC ll = COMMENT_START
            · simp only [if_pos h1]
              cases hc : parse_comment_header rest (h ++ (l ++ ['\n'])) with
              | ok v =>
                obtain ⟨h2, s2⟩ := v
                have hlen : s2.length ≤ rest.length := comment_length hc
                exact ih s2 (by omega) (by omega) (by omega) h2
              | err e => rfl
              | crash => rfl
            · simp only [if_neg h1]
              by_cases h2 : trimC ll = HEADER_START
              · simp only [if_pos h2]
                cases hc : parse_structured_header rest (h ++ (l ++ ['\n'])) with
                | ok v =>
                  obtain ⟨h3, s2⟩ := v
                  have hlen : s2.length ≤ rest.length := structured_length hc
                  exact ih s2 (by omega) (by omega) (by omega) h3
                | err e => rfl
                | crash => rfl
              · simp only [if_neg h2]

/-! ## Lemmas: the header accumulator -/

/-- Line sequences the header accumulator consumes as zero or more comment
and structured-header blocks: each block is an opener line, body lines none
of which trims to the block's closer, and the closing line. -/
inductive HeaderBlocks : List Line → Prop where
  | nil : HeaderBlocks []
  | comment : ∀ (l : Line) (body : List Line) (c : Line) (ws : List Line),
      trimC l = COMMENT_START → (∀ b ∈ body, trimC b ≠ COMMENT_END) →
      trimC c = COMMENT_END → HeaderBlocks ws →
      HeaderBlocks (l :: body ++ c :: ws)
  | structured : ∀ (l : Line) (body : List Line) (c : Line) (ws : List Line),
      trimC l = HEADER_START → (∀ b ∈ body, trimC b ≠ HEADER_END) →
      trimC c = HEADER_END → HeaderBlocks ws →
      HeaderBlocks (l :: body ++ c :: ws)

/-- The comment and structured-header openers differ. -/
theorem comment_ne_header : COMMENT_START ≠ HEADER_START := by decide

/-- The header loop at a line opening a comment block hands the rest of the
stream to the comment sub-loop. -/
theorem header_comment_arm {hs : List Line} (hhs : NlFree hs) {l : Line}
    (hl : '\n' ∉ l) (hopen : trimC l = COMMENT_START) (s1 : Input)
    (f : Nat) :
    parse_header_core (f + 1) (l :: s1) (rawConcat hs) =
      match parse_comment_header s1 (rawConcat (hs ++ [l])) with
      | .ok (h2, s2) => parse_header_core f s2 h2
      | .err e => .err e
      | .crash => .crash := by
  simp only [parse_header_core, readLine]
  rw [lastLineOpt_snoc hhs hl]
  simp only [← rawConcat_snoc]
  rw [if_pos hopen]

/-- The header loop at a line opening a structured-header block. -/
theorem header_structured_arm {hs : List Line} (hhs : NlFree hs) {l : Line}
    (hl : '\n' ∉ l) (hopen : trimC l = HEADER_START) (s1 : Input)
    (f : Nat) :
    parse_header_core (f + 1) (l :: s1) (rawConcat hs) =
      match parse_structured_header s1 (rawConcat (hs ++ [l])) with
      | .ok (h2, s2) => parse_header_core f s2 h2
      | .err e => .err e
      | .crash => .crash := by
  simp only [parse_header_core, readLine]
  rw [lastLineOpt_snoc hhs hl]
  simp only [← rawConcat_snoc]
  rw [if_neg (by rw [hopen]; exact comment_ne_header.symm), if_pos hopen]

/-- Consuming the blocks of a header prefix: the loop walks over `ws` and
continues on the remainder with the blocks' raw text appended to the
buffer. -/
theorem header_blocks_consume {ws : List Line} (hw : HeaderBlocks ws) :
    ∀ (hwn : NlFree ws) {hs : List Line}, NlFree hs → ∀ (rest : Input)
      {fuel : Nat}, (ws ++ rest).length < fuel →
      parse_header_core fuel (ws ++ rest) (rawConcat hs) =
        parse_header_core (rest.length + 1) rest (rawConcat (hs ++ ws)) := by
  induction hw with
  | nil =>
    intro _ hs hhs rest fuel hfuel
    rw [List.nil_append] at hfuel ⊢
    rw [List.append_nil]
    exact parse_header_core_fuel rest.length rest (le_refl _) hfuel
      (Nat.lt_succ_self _) _
  | comment l body c ws hopen hbody hclose hws ih =>
    intro hwn hs hhs rest fuel hfuel
    have hl : '\n' ∉ l := hwn.head
    have hrest : NlFree (body ++ c :: ws) := hwn.tail
    have hbodyn : NlFree body := fun x hx =>
      hrest x (List.mem_append.mpr (Or.inl hx))
    have hc : '\n' ∉ c :=
      hrest c (List.mem_append.mpr (Or.inr (List.mem_cons_self c ws)))
    have hwsn : NlFree ws := fun x hx =>
      hrest x (List.mem_append.mpr (Or.inr (List.mem_cons.mpr (Or.inr hx))))
    cases fuel with
    | zero => simp at hfuel
    | succ f =>
      rw [show (l :: body ++ c :: ws) ++ rest =
          l :: (body ++ c :: (ws ++ rest)) by simp]
      rw [header_comment_arm hhs hl hopen (body ++ c :: (ws ++ rest)) f]
      simp only [comment_block hbodyn hbody hc hclose (hhs.snoc hl)
        (ws ++ rest)]
      have hlen : (ws ++ rest).length < f := by
        simp only [List.length_cons, List.length_append] at hfuel ⊢
        omega
      rw [ih hwsn (((hhs.snoc hl).append hbodyn).snoc hc) rest hlen]
      congr 2
      simp
  | structured l body c ws hopen hbody hclose hws ih =>
    intro hwn hs hhs rest fuel hfuel
    have hl : '\n' ∉ l := hwn.head
    have hrest : NlFree (body ++ c :: ws) := hwn.tail
    have hbodyn : NlFree body := fun x hx =>
      hrest x (List.mem_append.mpr (Or.inl hx))
    have hc : '\n' ∉ c :=
      hrest c (List.mem_append.mpr (Or.inr (List.mem_cons_self c ws)))
    have hwsn : NlFree ws := fun x hx =>
      hrest x (List.mem_append.mpr (Or.inr (List.mem_cons.mpr (Or.inr hx))))
    cases fuel with
    | zero => simp at hfuel
    | succ f =>
      rw [show (l :: body ++ c :: ws) ++ rest =
          l :: (body ++ c :: (ws ++ rest)) by simp]
      rw [header_structured_arm hhs hl hopen (body ++ c :: (ws ++ rest)) f]
      simp only [structured_block hbodyn hbody hc hclose (hhs.snoc hl)
        (ws ++ rest)]
      have hlen : (ws ++ rest).length < f := by
        simp only [List.length_cons, List.length_append] at hfuel ⊢
        omega
      rw [ih hwsn (((hhs.snoc hl).append hbodyn).snoc hc) rest hlen]
      congr 2
      simp

/-- One step of the header loop at a line that opens no sub-block: the
run-info opener returns the buffer with the opener popped, anything else is
`BadHeaderStart` of the trimmed line. -/
theorem header_step {hs : List Line} (hhs : NlFree hs) {l : Line}
    (hl : '\n' ∉ l) (rest : Input) {fuel : Nat}
    (hfuel : (l :: rest).length < fuel)
    (h1 : trimC l ≠ COMMENT_START) (h2 : trimC l ≠ HEADER_START) :
    parse_header_core fuel (l :: rest) (rawConcat hs) =
      if trimC l = INIT_START then .ok (rawConcat hs, rest)
      else .err (.BadHeaderStart (trimC l)) := by
  cases fuel with
  | zero => simp at hfuel
  | succ f =>
    simp only [parse_header_core, readLine]
    rw [lastLineOpt_snoc hhs hl]
    simp only [if_neg h1, if_neg h2]
    by_cases h3 : trimC l = INIT_START
    · rw [if_pos h3, if_pos h3, pop_line_snoc hl]
    · rw [if_neg h3, if_neg h3]

/-! ## Lemmas: numbers, capacities and table rows -/

theorem parse_i32_range {s : List Char} {v : Int} (h : parse_i32 s = some v) :
    -(2 ^ 31) ≤ v ∧ v < 2 ^ 31 := by
  unfold parse_i32 at h
  split at h
  · split at h
    · split at h
      · simp only [Option.some.injEq] at h
        subst h
        omega
      · cases h
    · cases h
  · split at h
    · split at h
      · simp only [Option.some.injEq] at h
        subst h
        omega
      · cases h
    · cases h
  · split at h
    · split at h
      · simp only [Option.some.injEq] at h
        subst h
        omega
      · cases h
    · cases h

theorem parseField_i32_range {name : List Char} {t : Option (List Char)}
    {v : Int} (h : parseField_i32 name t = .ok v) :
    -(2 ^ 31) ≤ v ∧ v < 2 ^ 31 := by
  unfold parseField_i32 at h
  split at h
  · cases h
  · split at h
    · rename_i t0 v0 hv0
      simp only [POutcome.ok.injEq] at h
      subst h
      exact parse_i32_range hv0
    · cases h

theorem usizeOfI32_neg {n : Int} (h1 : -(2 ^ 31) ≤ n) (h2 : n < 0) :
    2 ^ 63 ≤ usizeOfI32 n := by
  unfold usizeOfI32
  omega

theorem usizeOfI32_nonneg {n : Int} (h1 : 0 ≤ n) (h2 : n < 2 ^ 31) :
    usizeOfI32 n = n.toNat := by
  unfold usizeOfI32
  omega

theorem initCapsPanic_neg {n : Int} (h1 : -(2 ^ 31) ≤ n) (h2 : n < 0) :
    initCapsPanic n = true := by
  have hu := usizeOfI32_neg h1 h2
  simp only [initCapsPanic, capPanics, Bool.or_eq_true, decide_eq_true_eq]
  left; omega

theorem initCapsPanic_nonneg {n : Int} (h1 : 0 ≤ n) (h2 : n < 2 ^ 31) :
    initCapsPanic n = false := by
  have hu := usizeOfI32_nonneg h1 h2
  simp only [initCapsPanic, capPanics, Bool.or_eq_false_iff,
    decide_eq_false_iff_not, not_lt]
  refine ⟨⟨⟨?_, ?_⟩, ?_⟩, ?_⟩ <;> (rw [hu]; omega)

theorem eventCapsPanic_neg {n : Int} (h1 : -(2 ^ 31) ≤ n) (h2 : n < 0) :
    eventCapsPanic n = true := by
  have hu := usizeOfI32_neg h1 h2
  simp only [eventCapsPanic, capPanics, Bool.or_eq_true, decide_eq_true_eq]
  left; omega

theorem eventCapsPanic_nonneg {n : Int} (h1 : 0 ≤ n) (h2 : n < 2 ^ 31) :
    eventCapsPanic n = false := by
  have hu := usizeOfI32_nonneg h1 h2
  simp only [eventCapsPanic, capPanics, Bool.or_eq_false_iff,
    decide_eq_false_iff_not, not_lt]
  refine ⟨⟨⟨⟨⟨⟨?_, ?_⟩, ?_⟩, ?_⟩, ?_⟩, ?_⟩, ?_⟩ <;> (rw [hu]; omega)

theorem parse_init_rows_len {n i : Nat} {s : Input}
    {out : List F64Repr × List F64Repr × List F64Repr × List Int}
    {s2 : Input} (h : parse_init_rows n i s = .ok (out, s2)) :
    out.1.length = n ∧ out.2.1.length = n ∧ out.2.2.1.length = n ∧
      out.2.2.2.length = n := by
  induction n generalizing i s out s2 with
  | zero =>
    simp only [parse_init_rows, POutcome.ok.injEq, Prod.mk.injEq] at h
    obtain ⟨rfl, rfl⟩ := h
    simp
  | succ n ih =>
    simp only [parse_init_rows, bind_eq_ok] at h
    obtain ⟨xsec, h1, xerr, h2, xmax, h3, lpr, h4, ⟨⟨xs, xe, xm, lp⟩, s3⟩,
      h5, h6⟩ := h
    simp only [pure_eq_ok, POutcome.ok.injEq, Prod.mk.injEq] at h6
    obtain ⟨rfl, rfl⟩ := h6
    have hl := ih h5
    simp at hl ⊢
    omega

theorem parse_event_rows_len {n i : Nat} {s : Input} {rows : EventRows}
    {s2 : Input} (h : parse_event_rows n i s = .ok (rows, s2)) :
    rows.IDUP.length = n ∧ rows.ISTUP.length = n ∧ rows.MOTHUP.length = n ∧
      rows.ICOLUP.length = n ∧ rows.PUP.length = n ∧
      rows.VTIMUP.length = n ∧ rows.SPINUP.length = n := by
  induction n generalizing i s rows s2 with
  | zero =>
    simp only [parse_event_rows, POutcome.ok.injEq, Prod.mk.injEq] at h
    obtain ⟨rfl, rfl⟩ := h
    simp
  | succ n ih =>
    simp only [parse_event_rows, bind_eq_ok] at h
    obtain ⟨idup, h1, istup, h2, m1, h3, m2, h4, c1, h5, c2, h6, p1, h7,
      p2, h8, p3, h9, p4, h10, p5, h11, vt, h12, sp, h13, ⟨rows0, s3⟩,
      h14, h15⟩ := h
    simp only [pure_eq_ok, POutcome.ok.injEq, Prod.mk.injEq] at h15
    obtain ⟨rfl, rfl⟩ := h15
    have hl := ih h14
    simp at hl ⊢
    omega

theorem parse_init_fields_NPRUP_range {raw : List Char} {f : InitFields}
    (h : parse_init_fields raw = .ok f) :
    -(2 ^ 31) ≤ f.NPRUP ∧ f.NPRUP < 2 ^ 31 := by
  simp only [parse_init_fields, bind_eq_ok] at h
  obtain ⟨a1, h1, a2, h2, a3, h3, a4, h4, a5, h5, a6, h6, a7, h7, a8, h8,
    a9, h9, a10, h10, hp⟩ := h
  simp only [pure_eq_ok, POutcome.ok.injEq] at hp
  subst hp
  exact parseField_i32_range h10

theorem parse_event_fields_NUP_range {raw : List Char} {f : EventFields}
    (h : parse_event_fields raw = .ok f) :
    -(2 ^ 31) ≤ f.NUP ∧ f.NUP < 2 ^ 31 := by
  simp only [parse_event_fields, bind_eq_ok] at h
  obtain ⟨a1, h1, a2, h2, a3, h3, a4, h4, a5, h5, a6, h6, hp⟩ := h
  simp only [pure_eq_ok, POutcome.ok.injEq] at hp
  subst hp
  exact parseField_i32_range h1

/-! ## Lemmas: the version line -/

theorem parse_version_cons (l : Line) (rest : Input) :
    parse_version (l :: rest) =
      version_from_parts (splitOnChar '"' (trimC l)) (l ++ ['\n']) rest := by
  simp only [parse_version, readLine, trimC_append_nl]

theorem vfp_single (p0 raw : List Char) (s1 : Input) :
    version_from_parts [p0] raw s1 =
      if p0 = LHEF_TAG_OPEN then .err .MissingVersion
      else .err (.BadFirstLine raw) := by
  by_cases h : p0 = LHEF_TAG_OPEN <;> simp [version_from_parts, h]

theorem vfp_pair (p0 p1 : List Char) (ps : List (List Char))
    (raw : List Char) (s1 : Input) :
    version_from_parts (p0 :: p1 :: ps) raw s1 =
      if p0 = LHEF_TAG_OPEN then
        if p1 = str "1.0" ∨ p1 = str "2.0" ∨ p1 = str "3.0" then
          if ps.get? 0 = some (str ">") then .ok (p1, s1)
          else .err (.BadFirstLine raw)
        else .err (.UnsupportedVersion p1)
      else .err (.BadFirstLine raw) := by
  by_cases h : p0 = LHEF_TAG_OPEN
  · by_cases h2 : p1 = str "1.0" ∨ p1 = str "2.0" ∨ p1 = str "3.0"
    · by_cases h3 : ps.get? 0 = some (str ">") <;>
        simp [version_from_parts, h, h2, h3]
    · simp [version_from_parts, h, h2]
  · simp [version_from_parts, h]

theorem splitOnChar_head_shape {c : Char} {t q : List Char}
    {qs : List (List Char)} (h : splitOnChar c t = q :: qs) :
    (qs = [] ∧ t = q) ∨ ∃ t2, t = q ++ c :: t2 := by
  have hj := joinC_splitOnChar c t
  rw [h] at hj
  cases qs with
  | nil => exact Or.inl ⟨rfl, hj.symm⟩
  | cons q2 qs2 =>
    right
    exact ⟨joinC c (q2 :: qs2), hj.symm⟩

/-! ## Concrete documents and success extractors for the witnesses -/

/-- The stream of a well-formed `<init>` body: the run line with one
subprocess, one table row, and the closing tag. -/
def initDoc : Input :=
  [str "2212 2212 6500.0 6500.0 0 0 10042 10042 3 1",
   str "1.0 0.1 2.0 100",
   str "</init>"]

/-- The stream of a well-formed `<event>` body: the event line with two
particles, two table rows, and the closing tag. -/
def eventDoc : Input :=
  [str "2 100 1.0 91.2 0.0078 0.118",
   str "1 1 0 0 501 0 0.0 0.0 45.6 45.6 0.0 0.0 9.0",
   str "2 1 0 0 0 501 0.0 0.0 -45.6 45.6 0.0 0.0 9.0",
   str "</event>"]

/-- The run-information outcome's payload, or a placeholder off the success
path (only used to phrase closed witness statements). -/
def initOkOr (o : POutcome (HEPRUP × Input)) : HEPRUP × Input :=
  match o with
  | .ok v => v
  | _ => (⟨(0, 0), ([], []), (0, 0), (0, 0), 0, 0, [], [], [], [], []⟩, [])

/-- The event outcome's payload, or a placeholder off the success path. -/
def eventOkOr (o : POutcome (HEPEUP × Input)) : HEPEUP × Input :=
  match o with
  | .ok v => v
  | _ => (⟨0, 0, [], [], [], [], [], [], [], [], [], [], [], []⟩, [])

/-! ## The claims -/

/-- C1: on every input stream on which run-information parsing succeeds, the
four subprocess tables `XSECUP`, `XERRUP`, `XMAXUP` and `LPRUP` of the
returned `HEPRUP` each have length exactly the declared subprocess count
`NPRUP`.  This covers every count `parse_init` accepts: a declared count it
accepts is never negative, because for a negative `NPRUP` the
`Vec::with_capacity` reservations panic before any row is read, so no value
is returned at all. -/
theorem heprup_table_lengths (s : Input) (hep : HEPRUP) (rest : Input)
    (h : parse_init s = .ok (hep, rest)) :
    (hep.XSECUP.length : Int) = hep.NPRUP ∧
    (hep.XERRUP.length : Int) = hep.NPRUP ∧
    (hep.XMAXUP.length : Int) = hep.NPRUP ∧
    (hep.LPRUP.length : Int) = hep.NPRUP := by
  simp only [parse_init] at h
  cases hf : parse_init_fields (readLine s).1 with
  | err e => simp only [hf] at h; cases h
  | crash => simp only [hf] at h; cases h
  | ok f =>
    simp only [hf] at h
    have hrange := parse_init_fields_NPRUP_range hf
    cases hcap : initCapsPanic f.NPRUP with
    | true => simp [hcap] at h
    | false =>
      simp only [hcap, Bool.false_eq_true, if_false] at h
      cases hr : parse_init_rows f.NPRUP.toNat 1 (readLine s).2 with
      | err e => simp only [hr] at h; cases h
      | crash => simp only [hr] at h; cases h
      | ok v =>
        obtain ⟨⟨xs, xe, xm, lp⟩, s2⟩ := v
        simp only [hr] at h
        cases hi : init_info_loop [] s2 with
        | err e => simp only [hi] at h; cases h
        | crash => simp only [hi] at h; cases h
        | ok v2 =>
          obtain ⟨info, s3⟩ := v2
          simp only [hi, POutcome.ok.injEq, Prod.mk.injEq] at h
          obtain ⟨rfl, rfl⟩ := h
          have hlen := parse_init_rows_len hr
          simp only at hlen
          have hge : 0 ≤ f.NPRUP := by
            by_contra hneg
            push_neg at hneg
            rw [initCapsPanic_neg hrange.1 hneg] at hcap
            cases hcap
          simp only
          omega

/-- C1 witness: the concrete one-subprocess run block of `initDoc`. -/
theorem heprup_table_lengths_witness :
    (((initOkOr (parse_init initDoc)).1.XSECUP.length : Int) =
      (initOkOr (parse_init initDoc)).1.NPRUP ∧
    ((initOkOr (parse_init initDoc)).1.XERRUP.length : Int) =
      (initOkOr (parse_init initDoc)).1.NPRUP ∧
    ((initOkOr (parse_init initDoc)).1.XMAXUP.length : Int) =
      (initOkOr (parse_init initDoc)).1.NPRUP ∧
    ((initOkOr (parse_init initDoc)).1.LPRUP.length : Int) =
      (initOkOr (parse_init initDoc)).1.NPRUP) :=
  heprup_table_lengths initDoc (initOkOr (parse_init initDoc)).1
    (initOkOr (parse_init initDoc)).2 (by decide)

/-- C2: on every input stream on which event parsing succeeds, the seven
per-particle tables `IDUP`, `ISTUP`, `MOTHUP`, `ICOLUP`, `PUP`, `VTIMUP` and
`SPINUP` of the returned `HEPEUP` each have length exactly the declared
particle count `NUP`.  As for C1, an accepted count is never negative: a
negative `NUP` panics in the capacity reservations before any row is
read. -/
theorem hepeup_table_lengths (s : Input) (e : HEPEUP) (rest : Input)
    (h : parse_event s = .ok (e, rest)) :
    (e.IDUP.length : Int) = e.NUP ∧
    (e.ISTUP.length : Int) = e.NUP ∧
    (e.MOTHUP.length : Int) = e.NUP ∧
    (e.ICOLUP.length : Int) = e.NUP ∧
    (e.PUP.length : Int) = e.NUP ∧
    (e.VTIMUP.length : Int) = e.NUP ∧
    (e.SPINUP.length : Int) = e.NUP := by
  simp only [parse_event] at h
  cases hf : parse_event_fields (readLine s).1 with
  | err e0 => simp only [hf] at h; cases h
  | crash => simp only [hf] at h; cases h
  | ok f =>
    simp only [hf] at h
    have hrange := parse_event_fields_NUP_range hf
    cases hcap : eventCapsPanic f.NUP with
    | true => simp [hcap] at h
    | false =>
      simp only [hcap, Bool.false_eq_true, if_false] at h
      cases hr : parse_event_rows f.NUP.toNat 1 (readLine s).2 with
      | err e0 => simp only [hr] at h; cases h
      | crash => simp only [hr] at h; cases h
      | ok v =>
        obtain ⟨rows, s2⟩ := v
        simp only [hr] at h
        cases hi : event_info_loop [] s2 with
        | err e0 => simp only [hi] at h; cases h
        | crash => simp only [hi] at h; cases h
        | ok v2 =>
          obtain ⟨info, s3⟩ := v2
          simp only [hi, POutcome.ok.injEq, Prod.mk.injEq] at h
          obtain ⟨rfl, rfl⟩ := h
          have hlen := parse_event_rows_len hr
          have hge : 0 ≤ f.NUP := by
            by_contra hneg
            push_neg at hneg
            rw [eventCapsPanic_neg hrange.1 hneg] at hcap
            cases hcap
          simp only
          omega

/-- C2 witness: the concrete two-particle event block of `eventDoc`. -/
theorem hepeup_table_lengths_witness :
    (((eventOkOr (parse_event eventDoc)).1.IDUP.length : Int) =
      (eventOkOr (parse_event eventDoc)).1.NUP ∧
    ((eventOkOr (parse_event eventDoc)).1.ISTUP.length : Int) =
      (eventOkOr (parse_event eventDoc)).1.NUP ∧
    ((eventOkOr (parse_event eventDoc)).1.MOTHUP.length : Int) =
      (eventOkOr (parse_event eventDoc)).1.NUP ∧
    ((eventOkOr (parse_event eventDoc)).1.ICOLUP.length : Int) =
      (eventOkOr (parse_event eventDoc)).1.NUP ∧
    ((eventOkOr (parse_event eventDoc)).1.PUP.length : Int) =
      (eventOkOr (parse_event eventDoc)).1.NUP ∧
    ((eventOkOr (parse_event eventDoc)).1.VTIMUP.length : Int) =
      (eventOkOr (parse_event eventDoc)).1.NUP ∧
    ((eventOkOr (parse_event eventDoc)).1.SPINUP.length : Int) =
      (eventOkOr (parse_event eventDoc)).1.NUP) :=
  hepeup_table_lengths eventDoc (eventOkOr (parse_event eventDoc)).1
    (eventOkOr (parse_event eventDoc)).2 (by decide)

/-- C3: the run-info capture loop stops exactly when the appended line
(terminator removed) equals `</init>` untrimmed — so an indented or padded
`</init>` does not close it — while the event capture loop stops exactly
when the *trimmed* line equals `</event>`, tolerating surrounding
whitespace; in both loops the matched closing line is popped, so the
returned info text is the buffer as it stood before the closer. -/
theorem info_closer_asymmetry (ls : List Line) (l : Line) (rest : Input)
    (hls : NlFree ls) (hl : '\n' ∉ l) :
    (l = INIT_END →
      init_info_loop (rawConcat ls) (l :: rest) = .ok (rawConcat ls, rest)) ∧
    (l ≠ INIT_END →
      init_info_loop (rawConcat ls) (l :: rest) =
        init_info_loop (rawConcat (ls ++ [l])) rest) ∧
    (trimC l = EVENT_END →
      event_info_loop (rawConcat ls) (l :: rest) = .ok (rawConcat ls, rest)) ∧
    (trimC l ≠ EVENT_END →
      event_info_loop (rawConcat ls) (l :: rest) =
        event_info_loop (rawConcat (ls ++ [l])) rest) := by
  refine ⟨fun h => ?_, fun h => ?_, fun h => ?_, fun h => ?_⟩
  · rw [init_info_step hls hl rest, if_pos h]
  · rw [init_info_step hls hl rest, if_neg h]
  · rw [event_info_step hls hl rest, if_pos h]
  · rw [event_info_step hls hl rest, if_neg h]

/-- C3 witness: `</init>` exact closes the run-info loop; an indented
`  </init>` does not close it (the loop keeps reading); an indented
`  </event>` does close the event loop. -/
theorem info_closer_asymmetry_witness :
    (init_info_loop (rawConcat []) [str "</init>"] =
      .ok (rawConcat [], [])) ∧
    (init_info_loop (rawConcat []) (str "  </init>" :: [str "</init>"]) =
      init_info_loop (rawConcat ([] ++ [str "  </init>"])) [str "</init>"]) ∧
    (event_info_loop (rawConcat []) [str "  </event>"] =
      .ok (rawConcat [], [])) :=
  ⟨(info_closer_asymmetry [] (str "</init>") [] (by decide) (by decide)).1
      (by decide),
   (info_closer_asymmetry [] (str "  </init>") [str "</init>"] (by decide)
      (by decide)).2.1 (by decide),
   (info_closer_asymmetry [] (str "  </event>") [] (by decide)
      (by decide)).2.2.1 (by decide)⟩

/-- C7: input exhausted inside a capture loop yields `EndOfFile` naming the
block: "event" for the event info loop (and hence for `Reader::event` when
the failure propagates), "init" for the run-info loop, "header" for the
comment and structured-header sub-loops. -/
theorem eof_block_names (ls hs : List Line) (hhs : NlFree hs)
    (hls : NlFree ls) :
    ((∀ l ∈ ls, trimC l ≠ EVENT_END) →
      event_info_loop (rawConcat hs) ls = .err (.EndOfFile (str "event"))) ∧
    ((∀ l ∈ ls, l ≠ INIT_END) →
      init_info_loop (rawConcat hs) ls = .err (.EndOfFile (str "init"))) ∧
    ((∀ l ∈ ls, trimC l ≠ COMMENT_END) →
      parse_comment_header ls (rawConcat hs) =
        .err (.EndOfFile (str "header"))) ∧
    ((∀ l ∈ ls, trimC l ≠ HEADER_END) →
      parse_structured_header ls (rawConcat hs) =
        .err (.EndOfFile (str "header"))) ∧
    (∀ l : Line, trimC l = EVENT_START →
      parse_event ls = .err (.EndOfFile (str "event")) →
      reader_event (l :: ls) = .err (.EndOfFile (str "event"))) := by
  refine ⟨fun h => event_info_exhaust hhs hls h,
    fun h => init_info_exhaust hhs hls h,
    fun h => comment_exhaust hhs hls h,
    fun h => structured_exhaust hhs hls h,
    fun l hopen0 hev => ?_⟩
  simp only [reader_event, readLine, trimC_append_nl]
  rw [if_pos hopen0, hev]

/-- C7 witness: concrete truncated blocks, and a whole `Reader::event` call
on a truncated event block. -/
theorem eof_block_names_witness :
    event_info_loop (rawConcat []) [str "x"] =
      .err (.EndOfFile (str "event")) ∧
    init_info_loop (rawConcat []) [str "x"] =
      .err (.EndOfFile (str "init")) ∧
    parse_comment_header [str "x"] (rawConcat []) =
      .err (.EndOfFile (str "header")) ∧
    parse_structured_header [str "x"] (rawConcat []) =
      .err (.EndOfFile (str "header")) ∧
    reader_event [str "<event>", str "0 100 1.0 91.2 0.0078 0.118",
      str "x"] = .err (.EndOfFile (str "event")) :=
  ⟨(eof_block_names [str "x"] [] (by decide) (by decide)).1 (by decide),
   (eof_block_names [str "x"] [] (by decide) (by decide)).2.1 (by decide),
   (eof_block_names [str "x"] [] (by decide) (by decide)).2.2.1 (by decide),
   (eof_block_names [str "x"] [] (by decide) (by decide)).2.2.2.1
     (by decide),
   (eof_block_names [str "0 100 1.0 91.2 0.0078 0.118", str "x"] []
     (by decide) (by decide)).2.2.2.2 (str "<event>") (by decide)
     (by decide)⟩

/-- C8: on a stream made of header blocks followed by the run-info opener,
`parse_header` returns exactly the raw text of every consumed line — the
blocks' openers, bodies and closers in order — and excludes the `<init>`
line, which `pop_line` removes from the buffer; and at a line that opens no
block where one was expected it fails `BadHeaderStart` carrying that
(trimmed) line. -/
theorem header_accumulation (ws : List Line) (l : Line) (rest : Input)
    (hw : HeaderBlocks ws) (hwn : NlFree ws) (hl : '\n' ∉ l) :
    (trimC l = INIT_START →
      parse_header (ws ++ l :: rest) = .ok (rawConcat ws, rest)) ∧
    (trimC l ≠ COMMENT_START → trimC l ≠ HEADER_START →
      trimC l ≠ INIT_START →
      parse_header (ws ++ l :: rest) = .err (.BadHeaderStart (trimC l))) := by
  have hnil : NlFree ([] : List Line) := fun x hx =>
    absurd hx (List.not_mem_nil x)
  have hcons : parse_header (ws ++ l :: rest) =
      parse_header_core ((l :: rest).length + 1) (l :: rest)
        (rawConcat ws) := by
    unfold parse_header
    have hstep : parse_header_core ((ws ++ l :: rest).length + 1)
        (ws ++ l :: rest) (rawConcat []) =
        parse_header_core ((l :: rest).length + 1) (l :: rest)
          (rawConcat ([] ++ ws)) :=
      header_blocks_consume hw hwn hnil (l :: rest) (Nat.lt_succ_self _)
    calc parse_header_core ((ws ++ l :: rest).length + 1) (ws ++ l :: rest)
          []
        = parse_header_core ((ws ++ l :: rest).length + 1) (ws ++ l :: rest)
          (rawConcat []) := rfl
      _ = parse_header_core ((l :: rest).length + 1) (l :: rest)
          (rawConcat ([] ++ ws)) := hstep
      _ = parse_header_core ((l :: rest).length + 1) (l :: rest)
          (rawConcat ws) := by rw [List.nil_append]
  constructor
  · intro hinit
    have h1 : trimC l ≠ COMMENT_START := by rw [hinit]; decide
    have h2 : trimC l ≠ HEADER_START := by rw [hinit]; decide
    rw [hcons, header_step hwn hl rest (Nat.lt_succ_self _) h1 h2,
      if_pos hinit]
  · intro h1 h2 h3
    rw [hcons, header_step hwn hl rest (Nat.lt_succ_self _) h1 h2,
      if_neg h3]

/-- C8 witness: a comment block then a structured block, all six lines kept
verbatim in the header, the `<init>` line excluded; and a concrete
`BadHeaderStart`. -/
theorem header_accumulation_witness :
    parse_header [str "<!--", str "a comment", str "-->", str "<header>",
      str "tags", str "</header>", str "<init>", str "x"] =
      .ok (rawConcat [str "<!--", str "a comment", str "-->",
        str "<header>", str "tags", str "</header>"], [str "x"]) ∧
    parse_header [str "bogus"] =
      .err (.BadHeaderStart (trimC (str "bogus"))) :=
  ⟨(header_accumulation
      [str "<!--", str "a comment", str "-->", str "<header>", str "tags",
        str "</header>"] (str "<init>") [str "x"]
      (HeaderBlocks.comment (str "<!--") [str "a comment"] (str "-->")
        [str "<header>", str "tags", str "</header>"] (by decide)
        (by decide) (by decide)
        (HeaderBlocks.structured (str "<header>") [str "tags"]
          (str "</header>") [] (by decide) (by decide) (by decide)
          HeaderBlocks.nil))
      (by decide) (by decide)).1 (by decide),
   (header_accumulation [] (str "bogus") [] HeaderBlocks.nil (by decide)
      (by decide)).2 (by decide) (by decide) (by decide)⟩

/-- C5: a `Reader::event` call in the Ready state reads one line: a trimmed
`<event>` runs the event parser and yields its event, a trimmed
`</LesHouchesEvents>` yields the end-of-events sentinel, any other line is
`BadEventStart` carrying the line as read; and on a stream positioned at
`k` event blocks followed by the terminator, exactly `k` successful fetches
precede the sentinel. -/
theorem reader_event_step (l : Line) (rest : Input) :
    (trimC l = EVENT_START → ∀ (e : HEPEUP) (s2 : Input),
      parse_event rest = .ok (e, s2) →
      reader_event (l :: rest) = .ok (some e, s2)) ∧
    (trimC l = LHEF_LAST_LINE →
      reader_event (l :: rest) = .ok (none, rest)) ∧
    (trimC l ≠ EVENT_START → trimC l ≠ LHEF_LAST_LINE →
      reader_event (l :: rest) = .err (.BadEventStart (l ++ ['\n']))) ∧
    (∀ (k : Nat) (s : Input), ValidTail k s →
      ∃ s1, runK k s = some s1 ∧
        ∃ s2, reader_event s1 = .ok (none, s2)) := by
  refine ⟨fun h e s2 hp => ?_, fun h => ?_, fun h1 h2 => ?_,
    fun k s hv => ?_⟩
  · simp only [reader_event, readLine, trimC_append_nl]
    rw [if_pos h, hp]
  · simp only [reader_event, readLine, trimC_append_nl]
    rw [if_neg (by rw [h]; decide), if_pos h]
  · simp only [reader_event, readLine, trimC_append_nl]
    rw [if_neg h1, if_neg h2]
  · induction hv with
    | last t r ht =>
      refine ⟨t :: r, rfl, r, ?_⟩
      simp only [reader_event, readLine, trimC_append_nl]
      rw [if_neg (by rw [ht]; decide), if_pos ht]
    | step l1 s1 e s2 k h1 h2 hv ih =>
      obtain ⟨s3, hrun, s4, hre⟩ := ih
      refine ⟨s3, ?_, s4, hre⟩
      have hone : reader_event (l1 :: s1) = .ok (some e, s2) := by
        simp only [reader_event, readLine, trimC_append_nl]
        rw [if_pos h1, h2]
      simp only [runK, hone]
      exact hrun

/-- C5 witness: a document tail with one event block yields one event, then
the sentinel; an unexpected line is `BadEventStart` carrying it. -/
theorem reader_event_step_witness :
    (∃ s1, runK 1 (str "<event>" :: eventDoc ++
        [str "</LesHouchesEvents>"]) = some s1 ∧
      ∃ s2, reader_event s1 = .ok (none, s2)) ∧
    reader_event [str "oops"] =
      .err (.BadEventStart (str "oops" ++ ['\n'])) :=
  ⟨(reader_event_step (str "<event>") []).2.2.2 1
      (str "<event>" :: eventDoc ++ [str "</LesHouchesEvents>"])
      (ValidTail.step (str "<event>")
        (eventDoc ++ [str "</LesHouchesEvents>"])
        (eventOkOr (parse_event
          (eventDoc ++ [str "</LesHouchesEvents>"]))).1
        (eventOkOr (parse_event
          (eventDoc ++ [str "</LesHouchesEvents>"]))).2 0
        (by decide) (by decide)
        (ValidTail.last (str "</LesHouchesEvents>") [] (by decide))),
   (reader_event_step (str "oops") []).2.2.1 (by decide) (by decide)⟩

/-- C6: the field decoder fails `MissingEntry` carrying the field name
exactly when the token slot is absent, fails `ConversionError` carrying the
raw token exactly when a token is present but not parseable as the target
numeric type, and otherwise returns the parsed value — at both the `i32`
and the `f64` instantiation; and a non-numeric token in the first
beam-energy slot propagates out of `parse_init` as
`ConversionError "abc"`. -/
theorem field_decoder_contract :
    (∀ (name : List Char) (t : Option (List Char)),
      ((parseField_i32 name t = .err (.MissingEntry name)) ↔ t = none) ∧
      (∀ raw, (parseField_i32 name t = .err (.ConversionError raw)) ↔
        (t = some raw ∧ parse_i32 raw = none)) ∧
      (∀ v, (parseField_i32 name t = .ok v) ↔
        (∃ raw, t = some raw ∧ parse_i32 raw = some v))) ∧
    (∀ (name : List Char) (t : Option (List Char)),
      ((parseField_f64 name t = .err (.MissingEntry name)) ↔ t = none) ∧
      (∀ raw, (parseField_f64 name t = .err (.ConversionError raw)) ↔
        (t = some raw ∧ parseF64Ok raw = false)) ∧
      (∀ v, (parseField_f64 name t = .ok v) ↔
        (t = some v ∧ parseF64Ok v = true))) ∧
    (∀ rest : Input,
      parse_init (str "2212 2212 abc 6500.0 0 0 10042 10042 3 1" :: rest) =
        .err (.ConversionError (str "abc"))) := by
  refine ⟨fun name t => ⟨?_, fun raw => ?_, fun v => ?_⟩,
    fun name t => ⟨?_, fun raw => ?_, fun v => ?_⟩, fun rest => ?_⟩
  · cases t with
    | none => simp [parseField_i32]
    | some x =>
      simp only [parseField_i32]
      cases hx : parse_i32 x <;> simp
  · cases t with
    | none => simp [parseField_i32]
    | some x =>
      simp only [parseField_i32]
      cases hx : parse_i32 x <;> simp_all <;> (intro he; subst he; simp [hx])
  · cases t with
    | none => simp [parseField_i32]
    | some x =>
      simp only [parseField_i32]
      cases hx : parse_i32 x <;> simp_all <;> (intro he; subst he; simp [hx])
  · cases t with
    | none => simp [parseField_f64]
    | some x =>
      simp only [parseField_f64]
      by_cases hx : parseF64Ok x <;> simp_all
  · cases t with
    | none => simp [parseField_f64]
    | some x =>
      simp only [parseField_f64]
      by_cases hx : parseF64Ok x <;> simp_all <;>
        (intro he; subst he; simp [hx])
  · cases t with
    | none => simp [parseField_f64]
    | some x =>
      simp only [parseField_f64]
      by_cases hx : parseF64Ok x <;> simp_all <;>
        (intro he; subst he; simp [hx])
  · simp only [parse_init, readLine]
    rw [show parse_init_fields
        (str "2212 2212 abc 6500.0 0 0 10042 10042 3 1" ++ ['\n']) =
        .err (.ConversionError (str "abc")) from by decide]

/-- C6 witness: the beam-energy conversion error at a concrete stream. -/
theorem field_decoder_contract_witness :
    parse_init [str "2212 2212 abc 6500.0 0 0 10042 10042 3 1"] =
      .err (.ConversionError (str "abc")) :=
  field_decoder_contract.2.2 []

/-- C10: a declared negative subprocess count (`NPRUP < 0`) or particle
count (`NUP < 0`) is never rejected with a `ParseError`: the sign-converted
count makes every `Vec::with_capacity` reservation overflow `isize::MAX`
bytes, so the parse panics instead of returning a value or an error. -/
theorem negative_count_panics :
    (∀ (l : Line) (rest : Input) (f : InitFields),
      parse_init_fields (l ++ ['\n']) = .ok f → f.NPRUP < 0 →
      parse_init (l :: rest) = .crash) ∧
    (∀ (l : Line) (rest : Input) (f : EventFields),
      parse_event_fields (l ++ ['\n']) = .ok f → f.NUP < 0 →
      parse_event (l :: rest) = .crash) := by
  constructor
  · intro l rest f hf hneg
    have hrange := parse_init_fields_NPRUP_range hf
    simp only [parse_init, readLine]
    simp only [hf]
    rw [initCapsPanic_neg hrange.1 hneg]
    simp
  · intro l rest f hf hneg
    have hrange := parse_event_fields_NUP_range hf
    simp only [parse_event, readLine]
    simp only [hf]
    rw [eventCapsPanic_neg hrange.1 hneg]
    simp

/-- C10 witness: a run line declaring `NPRUP = -1` and an event line
declaring `NUP = -1` both panic. -/
theorem negative_count_panics_witness :
    parse_init [str "2212 2212 6500.0 6500.0 0 0 10042 10042 3 -1"] =
      .crash ∧
    parse_event [str "-1 100 1.0 91.2 0.0078 0.118"] = .crash :=
  ⟨negative_count_panics.1 _ []
      ⟨(2212, 2212), (str "6500.0", str "6500.0"), (0, 0), (10042, 10042),
        3, -1⟩ (by decide) (by decide),
   negative_count_panics.2 _ []
      ⟨-1, 100, str "1.0", str "91.2", str "0.0078", str "0.118"⟩
      (by decide) (by decide)⟩

/-- C9: `parse_header` reads without an end-of-input check, so a stream that
ends immediately after the version line panics (`lines().last().unwrap()`
unwraps `None` on the empty buffer) instead of returning an error; the
unwrap is safe exactly when the buffer is nonempty. -/
theorem header_panic_on_eof :
    parse_header [] = .crash ∧
    reader_new [str "<LesHouchesEvents version=\"3.0\">"] = .crash ∧
    (∀ buf : List Char, buf ≠ [] → lastLineOpt buf ≠ none) := by
  refine ⟨by decide, by decide, fun buf hb hnone => ?_⟩
  cases hl : linesOf buf with
  | nil => exact linesOf_ne_nil hb hl
  | cons a as =>
    rw [lastLineOpt, hl] at hnone
    exact cons_getLast?_ne_none a as hnone

/-- C9 witness: the unwrap-safety clause at a concrete nonempty buffer. -/
theorem header_panic_on_eof_witness :
    parse_header [] = .crash ∧ lastLineOpt [' '] ≠ none :=
  ⟨header_panic_on_eof.1, header_panic_on_eof.2.2 [' '] (by decide)⟩

/-- C4 counterexample: the line `<LesHouchesEvents version="1.0">"` — the
closing `>` followed by a stray quote — is accepted with version `1.0`,
although its trimmed text does not consist of the literal prefix, a quoted
accepted token and the closing `>` alone (for any of the three accepted
tokens); the claim's "exactly when" fails in the only-if direction. -/
theorem version_negotiation_cx :
    parse_version [str "<LesHouchesEvents version=\"1.0\">\""] =
      .ok (str "1.0", []) ∧
    trimC (str "<LesHouchesEvents version=\"1.0\">\"") ≠
      LHEF_TAG_OPEN ++ '"' :: (str "1.0" ++ ['"', '>']) ∧
    trimC (str "<LesHouchesEvents version=\"1.0\">\"") ≠
      LHEF_TAG_OPEN ++ '"' :: (str "2.0" ++ ['"', '>']) ∧
    trimC (str "<LesHouchesEvents version=\"1.0\">\"") ≠
      LHEF_TAG_OPEN ++ '"' :: (str "3.0" ++ ['"', '>']) := by decide

/-- C4 (amended): `parse_version` reads one line and splits its trimmed text
at double quotes; it succeeds with canonical version `v` exactly when the
trimmed line is the literal prefix, then `v` in quotes among 1.0/2.0/3.0,
then `>`, followed by nothing or by a `"`-initiated remainder.  The checks
are ordered: a first split piece other than the literal prefix is
`BadFirstLine` carrying the raw line; with the prefix right, an absent
quoted token is `MissingVersion` (the trimmed line is the bare prefix); a
present quoted token outside the three is `UnsupportedVersion` carrying the
token, even if the closing `>` is missing; and with prefix and token right,
a third piece other than `>` is `BadFirstLine`. -/
theorem version_negotiation (l : Line) (rest : Input) :
    (∀ v, parse_version (l :: rest) = .ok (v, rest) ↔
      ((v = str "1.0" ∨ v = str "2.0" ∨ v = str "3.0") ∧
       ∃ t, trimC l = LHEF_TAG_OPEN ++ '"' :: (v ++ '"' :: '>' :: t) ∧
         (t = [] ∨ ∃ t2, t = '"' :: t2))) ∧
    (∀ u, parse_version (l :: rest) = .err (.UnsupportedVersion u) ↔
      (¬(u = str "1.0" ∨ u = str "2.0" ∨ u = str "3.0") ∧ '"' ∉ u ∧
       (trimC l = LHEF_TAG_OPEN ++ '"' :: u ∨
        ∃ t, trimC l = LHEF_TAG_OPEN ++ '"' :: (u ++ '"' :: t)))) ∧
    (parse_version (l :: rest) = .err .MissingVersion ↔
      trimC l = LHEF_TAG_OPEN) ∧
    ((trimC l ≠ LHEF_TAG_OPEN ∧
        ¬∃ t, trimC l = LHEF_TAG_OPEN ++ '"' :: t) →
      parse_version (l :: rest) = .err (.BadFirstLine (l ++ ['\n']))) ∧
    (∀ v, (v = str "1.0" ∨ v = str "2.0" ∨ v = str "3.0") →
      (∃ t, trimC l = LHEF_TAG_OPEN ++ '"' :: (v ++ '"' :: t) ∧
        ¬(t = ['>'] ∨ ∃ t2, t = '>' :: '"' :: t2)) →
      parse_version (l :: rest) = .err (.BadFirstLine (l ++ ['\n']))) := by
  have hTAG : ('"' : Char) ∉ LHEF_TAG_OPEN := by decide
  obtain ⟨p0, ps, hPc⟩ : ∃ p0 ps, splitOnChar '"' (trimC l) = p0 :: ps := by
    cases hc : splitOnChar '"' (trimC l) with
    | nil => exact absurd hc (splitOnChar_ne_nil _ _)
    | cons a b => exact ⟨a, b, rfl⟩
  have hjoin : joinC '"' (p0 :: ps) = trimC l := by
    rw [← hPc]; exact joinC_splitOnChar _ _
  refine ⟨fun v => ⟨?_, ?_⟩, fun u => ⟨?_, ?_⟩, ⟨?_, ?_⟩, ?_, ?_⟩
  · -- ok, forward
    intro h
    rw [parse_version_cons, hPc] at h
    cases ps with
    | nil => rw [vfp_single] at h; split at h <;> cases h
    | cons p1 ps2 =>
      rw [vfp_pair] at h
      by_cases h0 : p0 = LHEF_TAG_OPEN
      · rw [if_pos h0] at h
        by_cases h1 : p1 = str "1.0" ∨ p1 = str "2.0" ∨ p1 = str "3.0"
        · rw [if_pos h1] at h
          by_cases h2 : ps2.get? 0 = some (str ">")
          · rw [if_pos h2] at h
            simp only [POutcome.ok.injEq, Prod.mk.injEq] at h
            obtain ⟨rfl, -⟩ := h
            refine ⟨h1, ?_⟩
            subst h0
            cases hps2 : ps2 with
            | nil => rw [hps2] at h2; simp at h2
            | cons q qs =>
              rw [hps2] at h2
              simp only [List.get?_cons_zero, Option.some.injEq] at h2
              subst h2
              rw [hps2] at hjoin
              cases qs with
              | nil => exact ⟨[], by rw [← hjoin]; rfl, Or.inl rfl⟩
              | cons r rs =>
                exact ⟨'"' :: joinC '"' (r :: rs), by rw [← hjoin]; rfl,
                  Or.inr ⟨_, rfl⟩⟩
          · rw [if_neg h2] at h; cases h
        · rw [if_neg h1] at h; cases h
      · rw [if_neg h0] at h; cases h
  · -- ok, backward
    rintro ⟨hv3, t, hshape, hts⟩
    have hvq : ('"' : Char) ∉ v := by
      rcases hv3 with rfl | rfl | rfl <;> decide
    rw [parse_version_cons, hshape, splitOnChar_append _ hTAG,
      splitOnChar_append _ hvq]
    rcases hts with rfl | ⟨t2, rfl⟩
    · rw [splitOnChar_no_char (by decide : ('"' : Char) ∉ ['>'])]
      rw [vfp_pair, if_pos rfl, if_pos hv3, if_pos (by decide)]
    · rw [show ('>' :: '"' :: t2 : List Char) = ['>'] ++ '"' :: t2 from rfl,
        splitOnChar_append _ (by decide)]
      rw [vfp_pair, if_pos rfl, if_pos hv3,
        if_pos (by rw [List.get?_cons_zero]; decide)]
  · -- UnsupportedVersion, forward
    intro h
    rw [parse_version_cons, hPc] at h
    cases ps with
    | nil => rw [vfp_single] at h; split at h <;> cases h
    | cons p1 ps2 =>
      rw [vfp_pair] at h
      by_cases h0 : p0 = LHEF_TAG_OPEN
      · rw [if_pos h0] at h
        by_cases h1 : p1 = str "1.0" ∨ p1 = str "2.0" ∨ p1 = str "3.0"
        · rw [if_pos h1] at h; split at h <;> cases h
        · rw [if_neg h1] at h
          simp only [POutcome.err.injEq, ParseError.UnsupportedVersion.injEq]
            at h
          subst h
          refine ⟨h1, ?_, ?_⟩
          · exact mem_splitOnChar_not_mem (by
              rw [hPc]
              exact List.mem_cons.mpr (Or.inr (List.mem_cons_self p1 ps2)))
          · subst h0
            cases ps2 with
            | nil => exact Or.inl (by rw [← hjoin]; rfl)
            | cons q qs =>
              exact Or.inr ⟨joinC '"' (q :: qs), by rw [← hjoin]; rfl⟩
      · rw [if_neg h0] at h; cases h
  · -- UnsupportedVersion, backward
    rintro ⟨hnot3, hqfree, hdisj⟩
    rcases hdisj with hshape | ⟨t, hshape⟩
    · rw [parse_version_cons, hshape, splitOnChar_append _ hTAG,
        splitOnChar_no_char hqfree, vfp_pair, if_pos rfl, if_neg hnot3]
    · rw [parse_version_cons, hshape, splitOnChar_append _ hTAG,
        splitOnChar_append _ hqfree, vfp_pair, if_pos rfl, if_neg hnot3]
  · -- MissingVersion, forward
    intro h
    rw [parse_version_cons, hPc] at h
    cases ps with
    | nil =>
      rw [vfp_single] at h
      by_cases h0 : p0 = LHEF_TAG_OPEN
      · subst h0; rw [← hjoin]; rfl
      · rw [if_neg h0] at h; cases h
    | cons p1 ps2 =>
      rw [vfp_pair] at h
      by_cases h0 : p0 = LHEF_TAG_OPEN
      · rw [if_pos h0] at h
        by_cases h1 : p1 = str "1.0" ∨ p1 = str "2.0" ∨ p1 = str "3.0"
        · rw [if_pos h1] at h; split at h <;> cases h
        · rw [if_neg h1] at h; cases h
      · rw [if_neg h0] at h; cases h
  · -- MissingVersion, backward
    intro hshape
    rw [parse_version_cons, hshape, splitOnChar_no_char hTAG, vfp_single,
      if_pos rfl]
  · -- wrong prefix
    rintro ⟨hne, hnex⟩
    have h0 : p0 ≠ LHEF_TAG_OPEN := by
      intro h0
      subst h0
      cases ps with
      | nil => exact hne hjoin.symm
      | cons p1 ps2 => exact hnex ⟨joinC '"' (p1 :: ps2), hjoin.symm⟩
    rw [parse_version_cons, hPc]
    cases ps with
    | nil => rw [vfp_single, if_neg h0]
    | cons p1 ps2 => rw [vfp_pair, if_neg h0]
  · -- token right, closer wrong
    rintro v hv3 ⟨t, hshape, hnot⟩
    have hvq : ('"' : Char) ∉ v := by
      rcases hv3 with rfl | rfl | rfl <;> decide
    have hget : (splitOnChar '"' t).get? 0 ≠ some (str ">") := by
      intro hget
      cases hsp : splitOnChar '"' t with
      | nil => rw [hsp] at hget; simp at hget
      | cons q qs =>
        rw [hsp] at hget
        simp only [List.get?_cons_zero, Option.some.injEq] at hget
        subst hget
        rcases splitOnChar_head_shape hsp with ⟨-, hq⟩ | ⟨t2, ht2⟩
        · exact hnot (Or.inl hq)
        · exact hnot (Or.inr ⟨t2, ht2⟩)
    rw [parse_version_cons, hshape, splitOnChar_append _ hTAG,
      splitOnChar_append _ hvq, vfp_pair, if_pos rfl, if_pos hv3,
      if_neg hget]

/-- C4 witness: the amended characterization at concrete lines — a good
line accepted via the backward direction, a `9.9` token rejected as
`UnsupportedVersion`, a bare prefix as `MissingVersion`, a wrong opener as
`BadFirstLine`, and a right token with a missing `>` as `BadFirstLine`. -/
theorem version_negotiation_witness :
    parse_version [str "<LesHouchesEvents version=\"3.0\">"] =
      .ok (str "3.0", []) ∧
    parse_version [str "<LesHouchesEvents version=\"9.9\">"] =
      .err (.UnsupportedVersion (str "9.9")) ∧
    parse_version [str "<LesHouchesEvents version="] =
      .err .MissingVersion ∧
    parse_version [str "<Wrong>"] =
      .err (.BadFirstLine (str "<Wrong>" ++ ['\n'])) ∧
    parse_version [str "<LesHouchesEvents version=\"1.0\""] =
      .err (.BadFirstLine (str "<LesHouchesEvents version=\"1.0\"" ++
        ['\n'])) :=
  ⟨((version_negotiation (str "<LesHouchesEvents version=\"3.0\">") []).1
      (str "3.0")).mpr
      ⟨Or.inr (Or.inr rfl), [], by decide, Or.inl rfl⟩,
   ((version_negotiation (str "<LesHouchesEvents version=\"9.9\">")
      []).2.1 (str "9.9")).mpr
      ⟨by decide, by decide, Or.inr ⟨['>'], by decide⟩⟩,
   ((version_negotiation (str "<LesHouchesEvents version=")
      []).2.2.1).mpr (by decide),
   (version_negotiation (str "<Wrong>") []).2.2.2.1
      ⟨by decide, by
        rintro ⟨t, ht⟩
        rw [show trimC (str "<Wrong>") = str "<Wrong>" from by decide]
          at ht
        have hlen := congrArg List.length ht
        rw [List.length_append, List.length_cons] at hlen
        rw [show (str "<Wrong>").length = 7 from by decide,
          show LHEF_TAG_OPEN.length = 26 from by decide] at hlen
        omega⟩,
   (version_negotiation (str "<LesHouchesEvents version=\"1.0\"")
      []).2.2.2.2 (str "1.0") (Or.inl rfl)
      ⟨[], by decide, by rintro (h | ⟨t2, h⟩) <;> simp at h⟩⟩

end Lhef
